import Mathlib

/-!
Verification of the karma-workflows tag-driven deployment and rollback engine.

The engine lives in two bash scripts: the universal deploy script
(`deploy.sh` v3.0, with its legacy v2 sibling in `scripts/deploy.sh`) and the
universal rollback tool (`rollback.sh`).  Bash strings are modelled as
`List Char`; git tag state as an association list from tag names to commits;
every interactive read (menu choices, typed confirmations) is a function
argument; `date +%s` output is an argument as well.  All definitions are
executable.
-/

set_option maxRecDepth 10000

/-- Bash strings are modelled as lists of characters. -/
abbrev Str := List Char

/-- Decimal digit character for a single digit value (0-9); values above 9
collapse to the last branch, which the renderer never reaches. -/
def digitChar (d : Nat) : Char :=
  match d with
  | 0 => '0' | 1 => '1' | 2 => '2' | 3 => '3' | 4 => '4'
  | 5 => '5' | 6 => '6' | 7 => '7' | 8 => '8' | _ => '9'

/-- Fuel-indexed decimal rendering of a natural number, most significant digit
first.  Fuel `n + 1` always suffices for `n`. -/
def natToDigitsAux : Nat → Nat → Str
  | 0, _ => []
  | fuel + 1, n =>
    if n < 10 then [digitChar n]
    else natToDigitsAux fuel (n / 10) ++ [digitChar (n % 10)]

/-- Decimal rendering of a natural number as bash string interpolation
produces it (no leading zeros, no sign). -/
def natToDigits (n : Nat) : Str := natToDigitsAux (n + 1) n

/-- Reads a decimal digit string back into a number. -/
def digitsToNat (cs : Str) : Nat := cs.foldl (fun a c => 10 * a + (c.toNat - 48)) 0

/-- A semantic version triple, the `(major, minor, patch)` data of the tag
grammar. -/
structure Version where
  major : Nat
  minor : Nat
  patch : Nat
deriving DecidableEq

/-- Renders a version triple as the bash interpolation
`"$major.$minor.$patch"` does. -/
def renderVersion (v : Version) : Str :=
  natToDigits v.major ++ '.' :: natToDigits v.minor ++ '.' :: natToDigits v.patch

/-- The three deployment environments of the engine (the `hotfix` CLI token is
normalized to `production` with a patch increment before any tag logic runs). -/
inductive Env
  | development
  | staging
  | production
deriving DecidableEq

/-- The qualifier the deploy script appends to the rendered version: nothing
for production, `-staging` for staging, `-dev` for everything else (lines
396-401 of deploy.sh v3.0). -/
def envQualifier (e : Env) : Str :=
  match e with
  | .production => []
  | .staging => ("-staging".data)
  | .development => ("-dev".data)

/-- The tag string `deploy_version` builds from a raw version string:
`"${VERSION_PREFIX}${version}"` plus the environment qualifier, with the
default prefix `v`. -/
def deployTagOf (e : Env) (version : Str) : Str := 'v' :: version ++ envQualifier e

/-- The canonical rendered tag of an environment and version triple:
`v{M}.{N}.{P}` plus the environment qualifier. -/
def renderTag (e : Env) (v : Version) : Str := deployTagOf e (renderVersion v)

/-- Reads a maximal leading run of decimal digits; fails if there is none.
This models one `[0-9]+` group of the version regexes. -/
def readNum (cs : Str) : Option (Nat × Str) :=
  match cs.takeWhile Char.isDigit with
  | [] => none
  | ds => some (digitsToNat ds, cs.dropWhile Char.isDigit)

/-- Consumes a literal dot. -/
def expectDot : Str → Option Str
  | '.' :: r => some r
  | _ => none

/-- Decides the anchored regex `^[0-9]+\.[0-9]+\.[0-9]+$` used both by the
production-tag grep of `get_latest_version` and by the custom-version check of
`main`, returning the parsed triple on success. -/
def parseVersionTriple (cs : Str) : Option Version :=
  (readNum cs).bind fun p1 =>
  (expectDot p1.2).bind fun r2 =>
  (readNum r2).bind fun p2 =>
  (expectDot p2.2).bind fun r3 =>
  (readNum r3).bind fun p3 =>
  if p3.2 = [] then some ⟨p1.1, p2.1, p3.1⟩ else none

/-- Decides the production tag regex `^v[0-9]+\.[0-9]+\.[0-9]+$` (with the
default `VERSION_PREFIX="v"`). -/
def parseProdTag (cs : Str) : Option Version :=
  match cs with
  | 'v' :: rest => parseVersionTriple rest
  | _ => none

example : parseVersionTriple ("1.2.3".data) = some ⟨1, 2, 3⟩ := by decide
example : parseVersionTriple ("1.2.3-dev".data) = none := by decide
example : parseProdTag ("v10.0.7".data) = some ⟨10, 0, 7⟩ := by decide
example : renderTag .staging ⟨2, 1, 0⟩ = ("v2.1.0-staging".data) := by decide

/-- Three-way comparison on naturals, spelled out so that every later case
split is elementary. -/
def natCmp (m n : Nat) : Ordering :=
  if m < n then .lt else if m = n then .eq else .gt

/-- Three-way comparison on characters by code point. -/
def charCmp (a b : Char) : Ordering :=
  if a < b then .lt else if a = b then .eq else .gt

/-- Prefix test on character lists, written out to keep the development
self-contained. -/
def isPre : Str → Str → Bool
  | [], _ => true
  | _ :: _, [] => false
  | a :: as, b :: bs => (a = b : Bool) && isPre as bs

/-- Suffix test on character lists, via reversal. -/
def endsWithCl (sfx t : Str) : Bool := isPre sfx.reverse t.reverse

/-- Fuel-indexed GNU version comparison (`sort -V` key order) on the tag
language in use: maximal digit runs compare numerically, other characters
compare by code point.  The tags the scripts generate contain no leading
zeros and no tildes, on which domain this is exactly the `sort -V` order.
Fuel `a.length + 1` always suffices. -/
def versCompareAux : Nat → Str → Str → Ordering
  | 0, _, _ => .eq
  | _ + 1, [], [] => .eq
  | _ + 1, [], _ :: _ => .lt
  | _ + 1, _ :: _, [] => .gt
  | fuel + 1, a :: as, b :: bs =>
    if a.isDigit && b.isDigit then
      match natCmp (digitsToNat ((a :: as).takeWhile Char.isDigit))
                   (digitsToNat ((b :: bs).takeWhile Char.isDigit)) with
      | .eq => versCompareAux fuel ((a :: as).dropWhile Char.isDigit)
                                   ((b :: bs).dropWhile Char.isDigit)
      | o => o
    else
      match charCmp a b with
      | .eq => versCompareAux fuel as bs
      | o => o

/-- GNU version comparison with enough fuel. -/
def versCompare (a b : Str) : Ordering := versCompareAux (a.length + 1) a b

/-- One step of taking the version-sort maximum of a list of tag strings. -/
def sstep (acc : Option Str) (t : Str) : Option Str :=
  match acc with
  | none => some t
  | some m => if versCompare m t = .lt then some t else some m

/-- Models the pipeline `... | sort -V | tail -n 1`: the version-sort maximum
of a list of tag names, or `none` when the list is empty. -/
def lastSortV (l : List Str) : Option Str := l.foldl sstep none

/-- The per-environment tag filter of `get_latest_version` (deploy.sh v3.0
lines 322-342, identical in the v2 script): production keeps tags matching
`^v[0-9]+\.[0-9]+\.[0-9]+$`, staging keeps the glob `v*-staging`, and the
development branch keeps `v*-dev`. -/
def envFilter (e : Env) (t : Str) : Bool :=
  match e with
  | .production => (parseProdTag t).isSome
  | .staging => isPre ("v".data) t && endsWithCl ("-staging".data) t
  | .development => isPre ("v".data) t && endsWithCl ("-dev".data) t

/-- The function `get_latest_version` of both deploy scripts: filter the
repository's tag list by the environment's pattern, take the `sort -V`
maximum, and fall back to `v0.0.0` when no tag of that track exists. -/
def get_latest_version (e : Env) (tags : List Str) : Str :=
  match lastSortV (tags.filter (envFilter e)) with
  | none => ("v0.0.0".data)
  | some t => t

example :
    get_latest_version .production
      [("v1.0.0".data), ("v1.1.0".data), ("v1.1.0-dev".data)] = ("v1.1.0".data) := by
  decide
example :
    get_latest_version .production
      [("v2.0.0".data), ("v10.0.0".data)] = ("v10.0.0".data) := by
  decide
example :
    get_latest_version .development [("v1.0.0".data)] = ("v0.0.0".data) := by
  decide
example :
    get_latest_version .staging
      [("v2.0.0-staging".data), ("v1.9.9-staging".data), ("v3.0.0".data)] =
      ("v2.0.0-staging".data) := by
  decide

/-- Bash `${version#v}`: remove the shortest matching prefix `v` (the default
`VERSION_PREFIX`), if present. -/
def stripVPrefix (t : Str) : Str :=
  match t with
  | 'v' :: r => r
  | _ => t

/-- Bash `${version%-*}`: remove the shortest suffix matching `-*`, i.e. cut
the string at its last dash; a string with no dash is unchanged. -/
def stripAfterLastDash (t : Str) : Str :=
  match (t.reverse.dropWhile (fun c => !(c = '-' : Bool))) with
  | [] => t
  | _ :: rest => rest.reverse

example : stripAfterLastDash ("2.1.0-staging".data) = ("2.1.0".data) := by decide
example : stripAfterLastDash ("2.1.0".data) = ("2.1.0".data) := by decide
example : stripVPrefix ("v2.1.0".data) = ("2.1.0".data) := by decide

/-- The stripping `main` applies to a tag before using it as a bare version:
`${latest_tag#${VERSION_PREFIX}}` followed by `${...%-*}` (deploy.sh v3.0
lines 846-847 and 854-855). -/
def current_version_of (latest_tag : Str) : Str :=
  stripAfterLastDash (stripVPrefix latest_tag)

/-- The `increment_version` case statement (deploy.sh v3.0 lines 360-373, v2
lines 97-110) on an already-split version triple: `major`, `minor` and `patch`
bump and zero exactly the expected fields; the bash `case` has no default
branch, so any other increment kind leaves the components untouched and the
function echoes the version unchanged. -/
def incrementVersion (v : Version) (increment_type : String) : Version :=
  match increment_type with
  | "major" => ⟨v.major + 1, 0, 0⟩
  | "minor" => ⟨v.major, v.minor + 1, 0⟩
  | "patch" => ⟨v.major, v.minor, v.patch + 1⟩
  | _ => v

/-- The whole `increment_version` function on a version string: strip the `v`
prefix and any `-qualifier` suffix, split the remainder on dots and apply the
increment.  A remainder that is not an exact `[0-9]+\.[0-9]+\.[0-9]+` triple
makes the bash arithmetic fail under `set -e`, modelled as `none`. -/
def increment_version_str (version : Str) (increment_type : String) : Option Str :=
  match parseVersionTriple (current_version_of version) with
  | some v => some (renderVersion (incrementVersion v increment_type))
  | none => none

example : increment_version_str ("v1.2.3".data) "minor" = some ("1.3.0".data) := by decide
example : increment_version_str ("v1.2.3-dev".data) "major" = some ("2.0.0".data) := by decide

/-- Local-plus-remote git tag state: each side is an association list from tag
name to the commit the tag points at, plus the current `HEAD` commit.
Commits are abstract numbers. -/
structure GitState where
  localTags : List (Str × Nat)
  remoteTags : List (Str × Nat)
  head : Nat
deriving DecidableEq

/-- The tag names visible to `git tag -l`, in listing order. -/
def tagNames (st : GitState) : List Str := st.localTags.map (fun p => p.1)

/-- Commit a tag name resolves to, if it exists. -/
def lookupTag (l : List (Str × Nat)) (n : Str) : Option Nat :=
  (l.find? (fun p => (p.1 = n : Bool))).map (fun p => p.2)

/-- The existence check `git rev-parse "$tag"` performs against the local
repository. -/
def tagExists (st : GitState) (n : Str) : Bool :=
  st.localTags.any (fun p => (p.1 = n : Bool))

/-- The operator's answer to the three-option collision prompt of
`deploy_version`; any reply other than 1, 2 or 3 falls through the bash
`case` unmatched. -/
inductive CollisionChoice
  | forceRebuild
  | differentVersion
  | cancel
  | invalid (reply : Str)
deriving DecidableEq

/-- Result of one `deploy_version` call. -/
inductive DeployOutcome
  | deployed (tag : Str)
  | exitOkNoChange
  | cancelled
  | tagCreateFailed
deriving DecidableEq

/-- The rebuild branch of `deploy_version` (v3.0 lines 404-420): delete the
tag locally and remotely, recreate it at the current commit and force-push
it. -/
def force_rebuild_tag (tag : Str) (st : GitState) : GitState :=
  { st with
    localTags :=
      st.localTags.filter (fun p => !(p.1 = tag : Bool)) ++ [(tag, st.head)]
    remoteTags :=
      st.remoteTags.filter (fun p => !(p.1 = tag : Bool)) ++ [(tag, st.head)] }

/-- The function `deploy_version` of deploy.sh v3.0 (lines 388-459): render
the tag for the environment; in rebuild mode re-point it; otherwise detect a
collision with `git rev-parse` and offer force-rebuild / different version /
cancel, where an unmatched reply falls through to a `git tag -a` that fails on
the existing tag under `set -e`; with no collision, create the annotated tag
at `HEAD` and push it. -/
def deploy_version (version : Str) (e : Env) (rebuild : Bool)
    (choice : CollisionChoice) (st : GitState) : GitState × DeployOutcome :=
  let tag := deployTagOf e version
  if rebuild then
    (force_rebuild_tag tag st, .deployed tag)
  else
    if tagExists st tag then
      match choice with
      | .forceRebuild => (force_rebuild_tag tag st, .deployed tag)
      | .differentVersion => (st, .exitOkNoChange)
      | .cancel => (st, .cancelled)
      | .invalid _ => (st, .tagCreateFailed)
    else
      ({ st with
          localTags := st.localTags ++ [(tag, st.head)]
          remoteTags := st.remoteTags ++ [(tag, st.head)] },
       .deployed tag)

/-- The operator's answer to the interactive version-bump menu of `main`
(deploy.sh v3.0 lines 868-900): patch, minor, major, a custom typed version,
rebuild with the same version, cancel, or an unrecognized reply. -/
inductive VersionChoice
  | vpatch
  | vminor
  | vmajor
  | custom (s : Str)
  | chooseRebuild
  | cancelChoice
  | badReply
deriving DecidableEq

/-- How the version-determination block of `main` ends. -/
inductive ResolveOutcome
  | ok (new_version : Str) (rebuild : Bool)
  | cancelled
  | invalidFormat
  | invalidChoice
  | arithAbort
deriving DecidableEq

/-- The version-determination block of `main` (deploy.sh v3.0 lines 840-901):
rebuild mode reuses the latest tag's version verbatim; an explicit
`--version` argument is used verbatim with no validation; otherwise the
interactive menu increments the current version, validates a custom version
against `^[0-9]+\.[0-9]+\.[0-9]+$` (exiting on mismatch), switches to rebuild
mode, or cancels. -/
def resolve_new_version (rebuild_mode : Bool) (specific_version : Option Str)
    (choice : VersionChoice) (latest_tag : Str) : ResolveOutcome :=
  if rebuild_mode then .ok (current_version_of latest_tag) true
  else
    match specific_version with
    | some s => .ok s false
    | none =>
      let current := current_version_of latest_tag
      match choice with
      | .vpatch =>
        match increment_version_str current "patch" with
        | some nv => .ok nv false
        | none => .arithAbort
      | .vminor =>
        match increment_version_str current "minor" with
        | some nv => .ok nv false
        | none => .arithAbort
      | .vmajor =>
        match increment_version_str current "major" with
        | some nv => .ok nv false
        | none => .arithAbort
      | .custom s =>
        if (parseVersionTriple s).isSome then .ok s false else .invalidFormat
      | .chooseRebuild => .ok current true
      | .cancelChoice => .cancelled
      | .badReply => .invalidChoice

/-- How a whole deploy invocation ends, for the effectful tail of `main`. -/
inductive MainOutcome
  | resolveAborted (r : ResolveOutcome)
  | confirmAborted
  | previewOnly
  | previewDeclined
  | ran (d : DeployOutcome)
deriving DecidableEq

/-- The effectful tail of `main` in deploy.sh v3.0 (lines 840-984) for an
already-chosen environment: determine the new version, pass the production
gate that demands the exact typed string `DEPLOY <tag>` (lines 904-924),
honour `--preview` and the `ENABLE_PREVIEW` proceed prompt (lines 927-958),
and finally run `deploy_version`.  The earlier steps of `main` (argument
parsing, uncommitted-changes and branch warnings, `git fetch --tags`) create
and push no tags and are not modelled; the optional package.json version-bump
commit (lines 960-981) touches the branch, not the tag refs. -/
def main_deploy (e : Env) (rebuild_mode : Bool) (specific_version : Option Str)
    (choice : VersionChoice) (typed : Str)
    (preview_mode enable_preview proceed_reply : Bool)
    (cchoice : CollisionChoice) (st : GitState) : GitState × MainOutcome :=
  let latest_tag := get_latest_version e (tagNames st)
  match resolve_new_version rebuild_mode specific_version choice latest_tag with
  | .ok nv rb =>
    if e = .production ∧ typed ≠ ("DEPLOY v".data ++ nv) then
      (st, .confirmAborted)
    else if preview_mode then (st, .previewOnly)
    else if enable_preview ∧ proceed_reply = false then (st, .previewDeclined)
    else
      let r := deploy_version nv e rb cchoice st
      (r.1, .ran r.2)
  | r => (st, .resolveAborted r)

/-- The fixed staging allow-list of `has_staging_environment` in rollback.sh
(lines 113-123). -/
def has_staging_environment (service : String) : Bool :=
  service = "karma-merchant-api" || service = "karma-merchant-web" ||
  service = "storefront-service" || service = "storefront-web"

/-- The environment-name normalization of rollback.sh `main` (lines 455-462):
`dev` becomes `development`, `prod` becomes `production`, everything else is
unchanged. -/
def normalize_env (e : String) : String :=
  if e = "dev" then "development" else if e = "prod" then "production" else e

/-- Contiguous substring test, needle first. -/
def containsSub (needle : Str) : Str → Bool
  | [] => isPre needle []
  | c :: rest => isPre needle (c :: rest) || containsSub needle rest

/-- The per-environment filter of `get_deployment_history` (rollback.sh lines
56-80): production keeps `v*` tags containing neither `-dev` nor `-staging`
anywhere (`grep -v`), dev and staging keep the suffix globs; an unrecognized
environment name leaves the suffix empty and is treated like production. -/
def historyFilter (environment : String) (t : Str) : Bool :=
  if environment = "development" || environment = "dev" then
    isPre ("v".data) t && endsWithCl ("-dev".data) t
  else if environment = "staging" then
    isPre ("v".data) t && endsWithCl ("-staging".data) t
  else
    isPre ("v".data) t &&
      !(containsSub ("-dev".data) t) && !(containsSub ("-staging".data) t)

/-- Insertion into a list kept in descending version-sort order. -/
def insertDesc (x : Str) : List Str → List Str
  | [] => [x]
  | y :: ys => if versCompare x y = .lt then y :: insertDesc x ys else x :: y :: ys

/-- Descending version sort, modelling `--sort=-version:refname`. -/
def sortDescV (l : List Str) : List Str := l.foldr insertDesc []

/-- The function `get_deployment_history` of rollback.sh: the environment's
tags in descending version order, limited to `MAX_VERSIONS_TO_SHOW` (default
20) entries. -/
def get_deployment_history (environment : String) (tags : List Str) : List Str :=
  (sortDescV (tags.filter (historyFilter environment))).take 20

/-- The tag name `perform_rollback` synthesizes:
`"$version-rollback-$(date +%s)"` (rollback.sh lines 306-316). -/
def rollbackTagName (version ts : Str) : Str :=
  version ++ ("-rollback-".data) ++ ts

/-- The annotation message of the rollback tag (rollback.sh line 320):
`"Rollback to $version on $environment by $user"`. -/
def rollback_message (version : Str) (environment user : String) : Str :=
  ("Rollback to ".data) ++ version ++ (" on ".data) ++ environment.data ++
    (" by ".data) ++ user.data

/-- Result of a rollback invocation. -/
inductive RollbackOutcome
  | rolledBack (tag : Str) (message : Str)
  | stagingRefused
  | noDeployments
  | badSelection
  | targetMissing
  | cancelled
deriving DecidableEq

/-- The function `perform_rollback` of rollback.sh (lines 292-378), `tag`
method: resolve the target tag's commit with `git rev-list -n 1`, create an
annotated tag `<target>-rollback-<epoch>` at that commit and push it.  Under
`set -euo pipefail` a missing target would abort, but `main` has already
validated existence. -/
def perform_rollback (environment : String) (version : Str) (user : String)
    (ts : Str) (st : GitState) : GitState × RollbackOutcome :=
  match lookupTag st.localTags version with
  | none => (st, .targetMissing)
  | some commit =>
    let new_tag := rollbackTagName version ts
    ({ st with
        localTags := st.localTags ++ [(new_tag, commit)]
        remoteTags := st.remoteTags ++ [(new_tag, commit)] },
     .rolledBack new_tag (rollback_message version environment user))

/-- The `main` flow of rollback.sh (lines 405-511): normalize the environment
name, refuse staging for services outside the allow-list, require some
deployment history, take the target from `--version` or from the interactive
menu (modelled by an index into the displayed history), validate the target
with `git rev-parse`, ask for the typed `yes` confirmation unless skipped, and
perform the rollback. -/
def rollback_main (service : String) (environment : String)
    (version : Option Str) (sel : Nat) (confirm_reply : String)
    (skip_confirm : Bool) (user : String) (ts : Str) (st : GitState) :
    GitState × RollbackOutcome :=
  let env := normalize_env environment
  if env = "staging" ∧ has_staging_environment service = false then
    (st, .stagingRefused)
  else
    match (get_deployment_history env (tagNames st)).head? with
    | none => (st, .noDeployments)
    | some _current =>
      let target? :=
        match version with
        | some v => some v
        | none => (get_deployment_history env (tagNames st)).get? sel
      match target? with
      | none => (st, .badSelection)
      | some target =>
        if tagExists st target = false then (st, .targetMissing)
        else if skip_confirm = false ∧ confirm_reply ≠ "yes" then
          (st, .cancelled)
        else perform_rollback env target user ts st

/-- One external workflow run as `gh run list` reports it, with the terminal
conclusion `gh run view` will eventually report for it. -/
structure RunInfo where
  databaseId : Nat
  headBranch : String
  conclusion : String
deriving DecidableEq

/-- The jq selection `select(.headBranch == "refs/tags/$tag" or .headBranch
== "$tag")` of `monitor_github_actions`. -/
def matchesTagRef (tag : Str) (r : RunInfo) : Bool :=
  (r.headBranch.data = ("refs/tags/".data) ++ tag : Bool) ||
  (r.headBranch.data = tag : Bool)

/-- The bounded discovery loop of `monitor_github_actions` (deploy.sh v3.0
lines 514-529): up to `retries` queries of the most recent runs, each yielding
the first run whose head branch matches the pushed tag; queries beyond the
supplied observation sequence see no runs. -/
def find_workflow_run (tag : Str) : List (List RunInfo) → Nat → Option RunInfo
  | _, 0 => none
  | [], _ + 1 => none
  | q :: rest, n + 1 =>
    match q.find? (matchesTagRef tag) with
    | some r => some r
    | none => find_workflow_run tag rest n

/-- Terminal result of the monitor. -/
inductive MonitorOutcome
  | notFound (manualUrl : String)
  | success
  | failed (conclusion : String)
deriving DecidableEq

/-- The function `monitor_github_actions` of deploy.sh v3.0 (lines 492-563):
if the bounded discovery loop (10 attempts) finds no run for the tag, print a
manual-monitoring URL and return without failing; otherwise watch the run and
exit non-zero exactly when its terminal conclusion is not `success`. -/
def monitor_github_actions (tag : Str) (queries : List (List RunInfo))
    (github_repo : String) : MonitorOutcome :=
  match find_workflow_run tag queries 10 with
  | none => .notFound ("https://github.com/" ++ github_repo ++ "/actions")
  | some r =>
    if r.conclusion = "success" then .success else .failed r.conclusion

/-- Exit status contribution of the monitor: only a non-success terminal
conclusion makes the invocation exit non-zero (`exit 1`, line 561). -/
def monitorExitCode (o : MonitorOutcome) : Nat :=
  match o with
  | .notFound _ => 0
  | .success => 0
  | .failed _ => 1

/-- The head of `r`, if any, falsifies `p`; the shape under which a
maximal-run scan stops exactly at `r`. -/
def headFails (p : Char → Bool) (r : Str) : Prop :=
  ∀ c, r.head? = some c → p c = false

/-- Recognizes exactly the rendered tags of one environment's track and
extracts their version triple: the canonical reading of a tag string under
the tag grammar. -/
def matchTag (e : Env) (t : Str) : Option Version :=
  match e with
  | .production => parseProdTag t
  | .staging =>
    if endsWithCl ("-staging".data) t then parseProdTag (t.take (t.length - 8))
    else none
  | .development =>
    if endsWithCl ("-dev".data) t then parseProdTag (t.take (t.length - 4))
    else none

/-- The version triples present on an environment's track within a tag
list. -/
def trackVersions (e : Env) (tags : List Str) : List Version :=
  tags.filterMap (matchTag e)

/-- Lexicographic three-way comparison of version triples under the
`(major, minor, patch)` ordering. -/
def vcomp (a b : Version) : Ordering :=
  match natCmp a.major b.major with
  | .eq =>
    match natCmp a.minor b.minor with
    | .eq => natCmp a.patch b.patch
    | o => o
  | o => o

/-- Strict lexicographic order on version triples. -/
def ltV (a b : Version) : Prop :=
  a.major < b.major ∨
    (a.major = b.major ∧
      (a.minor < b.minor ∨ (a.minor = b.minor ∧ a.patch < b.patch)))

/-- Non-strict lexicographic order on version triples. -/
def leV (a b : Version) : Prop := ltV a b ∨ a = b

/-- One step of taking the maximum of a list of version triples. -/
def vstep (acc : Option Version) (v : Version) : Option Version :=
  match acc with
  | none => some v
  | some m => if vcomp m v = .lt then some v else some m

/-- The maximum of a list of version triples, mirroring `lastSortV` on the
rendered side. -/
def listMaxV (l : List Version) : Option Version := l.foldl vstep none

/-- The tag strings the engine itself writes: the rendered environment tags of
the grammar, and the rollback markers the rollback tool appends a unix epoch
to. -/
inductive WellFormedTag : Str → Prop
  | env (e : Env) (v : Version) : WellFormedTag (renderTag e v)
  | rollback (e : Env) (v : Version) (ts : Str) (hne : ts ≠ [])
      (hdig : ∀ c ∈ ts, c.isDigit = true) :
      WellFormedTag (rollbackTagName (renderTag e v) ts)

theorem digitChar_isDigit {d : Nat} (h : d < 10) : (digitChar d).isDigit = true := by
  interval_cases d <;> decide

theorem digitChar_toNat {d : Nat} (h : d < 10) : (digitChar d).toNat = 48 + d := by
  interval_cases d <;> decide

theorem natToDigitsAux_ne_nil {fuel n : Nat} (h : n < fuel) :
    natToDigitsAux fuel n ≠ [] := by
  induction fuel generalizing n with
  | zero => omega
  | succ fuel ih =>
    rw [natToDigitsAux]
    by_cases h10 : n < 10
    · simp [h10]
    · simp only [h10, if_false]
      intro hcon
      exact absurd (List.append_eq_nil.mp hcon).2 (by simp)

theorem natToDigitsAux_digits {fuel n : Nat} (h : n < fuel) :
    ∀ c ∈ natToDigitsAux fuel n, c.isDigit = true := by
  induction fuel generalizing n with
  | zero => omega
  | succ fuel ih =>
    rw [natToDigitsAux]
    by_cases h10 : n < 10
    · simp only [h10, if_true, List.mem_singleton]
      intro c hc
      subst hc
      exact digitChar_isDigit h10
    · simp only [h10, if_false]
      intro c hc
      rcases List.mem_append.mp hc with hc | hc
      · exact ih (by omega) c hc
      · rcases List.mem_singleton.mp hc with rfl
        exact digitChar_isDigit (Nat.mod_lt _ (by omega))

theorem digitsToNat_append_singleton (l : Str) (c : Char) :
    digitsToNat (l ++ [c]) = 10 * digitsToNat l + (c.toNat - 48) := by
  simp [digitsToNat, List.foldl_append]

theorem digitsToNat_natToDigitsAux {fuel n : Nat} (h : n < fuel) :
    digitsToNat (natToDigitsAux fuel n) = n := by
  induction fuel generalizing n with
  | zero => omega
  | succ fuel ih =>
    rw [natToDigitsAux]
    by_cases h10 : n < 10
    · simp [h10, digitsToNat, digitChar_toNat h10]
    · simp only [h10, if_false]
      rw [digitsToNat_append_singleton, ih (by omega),
        digitChar_toNat (Nat.mod_lt _ (by omega))]
      omega

theorem natToDigits_ne_nil (n : Nat) : natToDigits n ≠ [] :=
  natToDigitsAux_ne_nil (Nat.lt_succ_self n)

theorem natToDigits_digits (n : Nat) : ∀ c ∈ natToDigits n, c.isDigit = true :=
  natToDigitsAux_digits (Nat.lt_succ_self n)

theorem digitsToNat_natToDigits (n : Nat) : digitsToNat (natToDigits n) = n :=
  digitsToNat_natToDigitsAux (Nat.lt_succ_self n)

theorem headFails_nil (p : Char → Bool) : headFails p [] := by
  intro c h
  simp at h

theorem headFails_cons {p : Char → Bool} {c : Char} (r : Str) (h : p c = false) :
    headFails p (c :: r) := by
  intro d hd
  simp at hd
  subst hd
  exact h

theorem takeWhile_append_of_all {p : Char → Bool} {l r : Str}
    (hl : ∀ c ∈ l, p c = true) (hr : headFails p r) :
    (l ++ r).takeWhile p = l := by
  induction l with
  | nil =>
    simp only [List.nil_append]
    cases r with
    | nil => rfl
    | cons c cs => simp [List.takeWhile_cons, hr c rfl]
  | cons a as ih =>
    have ha : p a = true := hl a (by simp)
    simp only [List.cons_append, List.takeWhile_cons, ha, if_true]
    rw [ih (fun c hc => hl c (by simp [hc]))]

theorem dropWhile_append_of_all {p : Char → Bool} {l r : Str}
    (hl : ∀ c ∈ l, p c = true) (hr : headFails p r) :
    (l ++ r).dropWhile p = r := by
  induction l with
  | nil =>
    simp only [List.nil_append]
    cases r with
    | nil => rfl
    | cons c cs => simp [List.dropWhile_cons, hr c rfl]
  | cons a as ih =>
    have ha : p a = true := hl a (by simp)
    simp only [List.cons_append, List.dropWhile_cons, ha, if_true]
    exact ih (fun c hc => hl c (by simp [hc]))

theorem readNum_run_append {d r : Str} (hd : d ≠ [])
    (hdig : ∀ c ∈ d, c.isDigit = true) (hr : headFails Char.isDigit r) :
    readNum (d ++ r) = some (digitsToNat d, r) := by
  rw [readNum, takeWhile_append_of_all hdig hr, dropWhile_append_of_all hdig hr]
  cases d with
  | nil => exact absurd rfl hd
  | cons c cs => rfl

theorem readNum_natToDigits_append {n : Nat} {r : Str}
    (hr : headFails Char.isDigit r) :
    readNum (natToDigits n ++ r) = some (n, r) := by
  rw [readNum_run_append (natToDigits_ne_nil n) (natToDigits_digits n) hr,
    digitsToNat_natToDigits]

theorem parseVersionTriple_render_append (v : Version) {r : Str}
    (hr : headFails Char.isDigit r) :
    parseVersionTriple (renderVersion v ++ r) =
      if r = [] then some v else none := by
  have hdot : ∀ s : Str, headFails Char.isDigit ('.' :: s) :=
    fun s => headFails_cons s (by decide)
  rw [renderVersion]
  rw [show natToDigits v.major ++ '.' :: natToDigits v.minor ++
        '.' :: natToDigits v.patch ++ r =
      natToDigits v.major ++ ('.' :: (natToDigits v.minor ++
        ('.' :: (natToDigits v.patch ++ r)))) by simp]
  rw [parseVersionTriple, readNum_natToDigits_append (hdot _)]
  simp only [Option.some_bind, expectDot]
  rw [readNum_natToDigits_append (hdot _)]
  simp only [Option.some_bind, expectDot]
  rw [readNum_natToDigits_append hr]
  simp only [Option.some_bind]

theorem parseVersionTriple_renderVersion (v : Version) :
    parseVersionTriple (renderVersion v) = some v := by
  have := parseVersionTriple_render_append v (headFails_nil Char.isDigit)
  simpa using this

theorem headFails_qualifier_append (e : Env) (r : Str)
    (hr : headFails Char.isDigit r) :
    headFails Char.isDigit (envQualifier e ++ r) := by
  cases e with
  | production => simpa using hr
  | staging => exact headFails_cons _ (by decide)
  | development => exact headFails_cons _ (by decide)

theorem renderTag_eq_cons_append (e : Env) (v : Version) (r : Str) :
    renderTag e v ++ r = 'v' :: (renderVersion v ++ (envQualifier e ++ r)) := by
  simp [renderTag, deployTagOf]

theorem parseProdTag_renderTag_append (e : Env) (v : Version) {r : Str}
    (hr : headFails Char.isDigit r) :
    parseProdTag (renderTag e v ++ r) =
      if envQualifier e ++ r = [] then some v else none := by
  rw [renderTag_eq_cons_append, parseProdTag,
    parseVersionTriple_render_append v (headFails_qualifier_append e r hr)]

theorem parseProdTag_renderTag_prod (v : Version) :
    parseProdTag (renderTag .production v) = some v := by
  have := parseProdTag_renderTag_append .production v (headFails_nil Char.isDigit)
  simpa [envQualifier] using this

theorem parseProdTag_renderTag_ne_prod (e : Env) (v : Version)
    (he : e ≠ .production) : parseProdTag (renderTag e v) = none := by
  have := parseProdTag_renderTag_append e v (headFails_nil Char.isDigit)
  rw [List.append_nil] at this
  rw [this]
  cases e with
  | production => exact absurd rfl he
  | staging => simp [envQualifier]
  | development => simp [envQualifier]

theorem mem_takeWhile_sat {p : Char → Bool} :
    ∀ {l : Str} {c : Char}, c ∈ l.takeWhile p → p c = true := by
  intro l
  induction l with
  | nil => intro c hc; simp [List.takeWhile] at hc
  | cons a as ih =>
    intro c hc
    rw [List.takeWhile_cons] at hc
    by_cases ha : p a = true
    · rw [if_pos ha] at hc
      rcases List.mem_cons.mp hc with rfl | hc
      · exact ha
      · exact ih hc
    · rw [if_neg ha] at hc
      simp at hc

theorem readNum_shape {cs : Str} {n : Nat} {r : Str}
    (h : readNum cs = some (n, r)) :
    ∃ d, cs = d ++ r ∧ d ≠ [] ∧ ∀ c ∈ d, c.isDigit = true := by
  rw [readNum] at h
  rcases hh : cs.takeWhile Char.isDigit with _ | ⟨c, cs2⟩
  · rw [hh] at h; simp at h
  · rw [hh] at h
    refine ⟨c :: cs2, ?_, by simp, ?_⟩
    · have := List.takeWhile_append_dropWhile (p := Char.isDigit) (l := cs)
      simp only [Option.some.injEq, Prod.mk.injEq] at h
      rw [← this, hh, h.2]
    · intro x hx
      rw [← hh] at hx
      exact mem_takeWhile_sat hx

theorem expectDot_shape {cs r : Str} (h : expectDot cs = some r) :
    cs = '.' :: r := by
  rw [expectDot.eq_def] at h
  split at h
  · rename_i r2
    injection h with h
    subst h
    rfl
  · simp at h

theorem parse_chars {cs : Str} {v : Version}
    (h : parseVersionTriple cs = some v) :
    ∀ c ∈ cs, c.isDigit = true ∨ c = '.' := by
  rw [parseVersionTriple] at h
  rcases h1 : readNum cs with _ | ⟨n1, r1⟩
  · rw [h1] at h; simp at h
  rw [h1] at h
  simp only [Option.some_bind] at h
  rcases h2 : expectDot r1 with _ | r2
  · rw [h2] at h; simp at h
  rw [h2] at h
  simp only [Option.some_bind] at h
  rcases h3 : readNum r2 with _ | ⟨n2, r3⟩
  · rw [h3] at h; simp at h
  rw [h3] at h
  simp only [Option.some_bind] at h
  rcases h4 : expectDot r3 with _ | r4
  · rw [h4] at h; simp at h
  rw [h4] at h
  simp only [Option.some_bind] at h
  rcases h5 : readNum r4 with _ | ⟨n3, r5⟩
  · rw [h5] at h; simp at h
  rw [h5] at h
  simp only [Option.some_bind] at h
  by_cases h6 : r5 = []
  · subst h6
    rcases readNum_shape h1 with ⟨d1, rfl, _, hd1⟩
    rcases expectDot_shape h2 with rfl
    rcases readNum_shape h3 with ⟨d2, rfl, _, hd2⟩
    rcases expectDot_shape h4 with rfl
    rcases readNum_shape h5 with ⟨d3, rfl, _, hd3⟩
    intro c hc
    simp only [List.append_nil, List.mem_append, List.mem_cons] at hc
    rcases hc with hc | hc | hc | hc | hc
    · exact Or.inl (hd1 c hc)
    · exact Or.inr hc
    · exact Or.inl (hd2 c hc)
    · exact Or.inr hc
    · exact Or.inl (hd3 c hc)
  · rw [if_neg h6] at h
    simp at h

theorem parseVersionTriple_none_of_dash {cs : Str} (h : '-' ∈ cs) :
    parseVersionTriple cs = none := by
  rcases hp : parseVersionTriple cs with _ | v
  · rfl
  · exfalso
    rcases parse_chars hp '-' h with hd | hd
    · simp at hd
    · simp at hd

theorem parseProdTag_none_of_dash {cs : Str} (h : '-' ∈ cs.drop 1) :
    parseProdTag cs = none := by
  rw [parseProdTag.eq_def]
  split
  · rename_i rest
    exact parseVersionTriple_none_of_dash (by simpa using h)
  · rfl

theorem isPre_append_self : ∀ l r : Str, isPre l (l ++ r) = true := by
  intro l r
  induction l with
  | nil => rfl
  | cons a as ih => simp [isPre, ih]

theorem endsWithCl_append_self (s x : Str) : endsWithCl s (x ++ s) = true := by
  rw [endsWithCl, List.reverse_append]
  exact isPre_append_self _ _

theorem endsWithCl_false_of_head_ne {s t : Str} {c d : Char}
    (hs : s.reverse.head? = some c) (ht : t.reverse.head? = some d)
    (hne : c ≠ d) : endsWithCl s t = false := by
  rw [endsWithCl]
  rcases hsr : s.reverse with _ | ⟨c0, ss⟩
  · rw [hsr] at hs; simp at hs
  · rw [hsr] at hs
    simp at hs
    subst hs
    rcases htr : t.reverse with _ | ⟨d0, ts⟩
    · rw [htr] at ht; simp at ht
    · rw [htr] at ht
      simp at ht
      subst ht
      simp [isPre, hne]

theorem reverse_head_append {x d : Str} (hd : d ≠ []) :
    (x ++ d).reverse.head? = d.reverse.head? := by
  rw [List.reverse_append]
  rcases hdr : d.reverse with _ | ⟨c, cs⟩
  · exact absurd (by simpa using congrArg List.reverse hdr) hd
  · simp

theorem natToDigits_rev_head (n : Nat) :
    ∃ c, (natToDigits n).reverse.head? = some c ∧ c.isDigit = true := by
  rcases hdr : (natToDigits n).reverse with _ | ⟨c, cs⟩
  · exact absurd (by simpa using congrArg List.reverse hdr) (natToDigits_ne_nil n)
  · refine ⟨c, by simp, ?_⟩
    have : c ∈ (natToDigits n).reverse := by rw [hdr]; simp
    exact natToDigits_digits n c (List.mem_reverse.mp this)

theorem renderTag_prod_rev_head (v : Version) :
    ∃ c, (renderTag .production v).reverse.head? = some c ∧ c.isDigit = true := by
  have hshape : renderTag .production v =
      ('v' :: natToDigits v.major ++ '.' :: natToDigits v.minor ++ ['.']) ++
        natToDigits v.patch := by
    simp [renderTag, deployTagOf, renderVersion, envQualifier]
  rcases natToDigits_rev_head v.patch with ⟨c, hc, hdig⟩
  exact ⟨c, by rw [hshape, reverse_head_append (natToDigits_ne_nil v.patch)]; exact hc, hdig⟩

theorem renderTag_staging_rev_head (v : Version) :
    (renderTag .staging v).reverse.head? = some 'g' := by
  have hshape : renderTag .staging v =
      ('v' :: renderVersion v) ++ ("-staging".data) := by
    simp [renderTag, deployTagOf, envQualifier]
  rw [hshape, reverse_head_append (by decide)]
  decide

theorem renderTag_dev_rev_head (v : Version) :
    (renderTag .development v).reverse.head? = some 'v' := by
  have hshape : renderTag .development v =
      ('v' :: renderVersion v) ++ ("-dev".data) := by
    simp [renderTag, deployTagOf, envQualifier]
  rw [hshape, reverse_head_append (by decide)]
  decide

theorem rollbackTagName_rev_head {b ts : Str} (hne : ts ≠ [])
    (hdig : ∀ c ∈ ts, c.isDigit = true) :
    ∃ c, (rollbackTagName b ts).reverse.head? = some c ∧ c.isDigit = true := by
  have hshape : rollbackTagName b ts = (b ++ ("-rollback-".data)) ++ ts := by
    simp [rollbackTagName]
  rcases hdr : ts.reverse with _ | ⟨c, cs⟩
  · exact absurd (by simpa using congrArg List.reverse hdr) hne
  · refine ⟨c, ?_, ?_⟩
    · rw [hshape, reverse_head_append hne, hdr]
      simp
    · have : c ∈ ts.reverse := by rw [hdr]; simp
      exact hdig c (List.mem_reverse.mp this)

theorem take_length_sub_append (x s : Str) :
    (x ++ s).take ((x ++ s).length - s.length) = x := by
  have h : (x ++ s).length - s.length = x.length := by
    simp [List.length_append]
  rw [h]
  exact List.take_left x s

theorem renderTag_prod_shape (v : Version) :
    renderTag .production v = 'v' :: renderVersion v := by
  simp [renderTag, deployTagOf, envQualifier]

theorem envFilter_self (e : Env) (v : Version) :
    envFilter e (renderTag e v) = true := by
  cases e with
  | production => simp [envFilter, parseProdTag_renderTag_prod]
  | staging =>
    have hshape : renderTag .staging v =
        ('v' :: renderVersion v) ++ ("-staging".data) := by
      simp [renderTag, deployTagOf, envQualifier]
    rw [envFilter, hshape]
    rw [endsWithCl_append_self]
    simp [isPre]
  | development =>
    have hshape : renderTag .development v =
        ('v' :: renderVersion v) ++ ("-dev".data) := by
      simp [renderTag, deployTagOf, envQualifier]
    rw [envFilter, hshape]
    rw [endsWithCl_append_self]
    simp [isPre]

theorem matchTag_self (e : Env) (v : Version) :
    matchTag e (renderTag e v) = some v := by
  cases e with
  | production => simpa [matchTag] using parseProdTag_renderTag_prod v
  | staging =>
    have hshape : renderTag .staging v =
        ('v' :: renderVersion v) ++ ("-staging".data) := by
      simp [renderTag, deployTagOf, envQualifier]
    rw [matchTag, hshape, endsWithCl_append_self]
    simp only [if_true]
    have hlen : ((('v' :: renderVersion v) ++ ("-staging".data)) : Str).length - 8 =
        (('v' :: renderVersion v) : Str).length := by
      simp [List.length_append]
    rw [hlen, List.take_left, ← renderTag_prod_shape]
    exact parseProdTag_renderTag_prod v
  | development =>
    have hshape : renderTag .development v =
        ('v' :: renderVersion v) ++ ("-dev".data) := by
      simp [renderTag, deployTagOf, envQualifier]
    rw [matchTag, hshape, endsWithCl_append_self]
    simp only [if_true]
    have hlen : ((('v' :: renderVersion v) ++ ("-dev".data)) : Str).length - 4 =
        (('v' :: renderVersion v) : Str).length := by
      simp [List.length_append]
    rw [hlen, List.take_left, ← renderTag_prod_shape]
    exact parseProdTag_renderTag_prod v

theorem endsWithCl_staging_false_of_digit {t : Str} {c : Char}
    (ht : t.reverse.head? = some c) (hc : c.isDigit = true) :
    endsWithCl ("-staging".data) t = false := by
  refine endsWithCl_false_of_head_ne (c := 'g') (by decide) ht ?_
  intro h
  rw [← h] at hc
  simp at hc

theorem endsWithCl_dev_false_of_digit {t : Str} {c : Char}
    (ht : t.reverse.head? = some c) (hc : c.isDigit = true) :
    endsWithCl ("-dev".data) t = false := by
  refine endsWithCl_false_of_head_ne (c := 'v') (by decide) ht ?_
  intro h
  rw [← h] at hc
  simp at hc

theorem envFilter_other {e e2 : Env} (v : Version) (h : e ≠ e2) :
    envFilter e (renderTag e2 v) = false := by
  cases e with
  | production =>
    rw [envFilter, parseProdTag_renderTag_ne_prod e2 v (fun hh => h hh.symm)]
    rfl
  | staging =>
    rw [envFilter]
    cases e2 with
    | production =>
      rcases renderTag_prod_rev_head v with ⟨c, hc, hdig⟩
      rw [endsWithCl_staging_false_of_digit hc hdig, Bool.and_false]
    | staging => exact absurd rfl h
    | development =>
      rw [endsWithCl_false_of_head_ne (c := 'g') (by decide)
        (renderTag_dev_rev_head v) (by decide), Bool.and_false]
  | development =>
    rw [envFilter]
    cases e2 with
    | production =>
      rcases renderTag_prod_rev_head v with ⟨c, hc, hdig⟩
      rw [endsWithCl_dev_false_of_digit hc hdig, Bool.and_false]
    | staging =>
      rw [endsWithCl_false_of_head_ne (c := 'v') (by decide)
        (renderTag_staging_rev_head v) (by decide), Bool.and_false]
    | development => exact absurd rfl h

theorem matchTag_other {e e2 : Env} (v : Version) (h : e ≠ e2) :
    matchTag e (renderTag e2 v) = none := by
  cases e with
  | production =>
    rw [matchTag]
    exact parseProdTag_renderTag_ne_prod e2 v (fun hh => h hh.symm)
  | staging =>
    rw [matchTag]
    cases e2 with
    | production =>
      rcases renderTag_prod_rev_head v with ⟨c, hc, hdig⟩
      rw [endsWithCl_staging_false_of_digit hc hdig]
      rfl
    | staging => exact absurd rfl h
    | development =>
      rw [endsWithCl_false_of_head_ne (c := 'g') (by decide)
        (renderTag_dev_rev_head v) (by decide)]
      rfl
  | development =>
    rw [matchTag]
    cases e2 with
    | production =>
      rcases renderTag_prod_rev_head v with ⟨c, hc, hdig⟩
      rw [endsWithCl_dev_false_of_digit hc hdig]
      rfl
    | staging =>
      rw [endsWithCl_false_of_head_ne (c := 'v') (by decide)
        (renderTag_staging_rev_head v) (by decide)]
      rfl
    | development => exact absurd rfl h

theorem dash_mem_rollback_drop (b ts : Str) :
    '-' ∈ (rollbackTagName b ts).drop 1 := by
  rcases b with _ | ⟨c, bs⟩
  · simp [rollbackTagName]
  · simp only [rollbackTagName, List.cons_append, List.drop_succ_cons,
      List.drop_zero]
    refine List.mem_append.mpr (Or.inl ?_)
    refine List.mem_append.mpr (Or.inr ?_)
    decide

theorem envFilter_rollback (e : Env) {b ts : Str} (hne : ts ≠ [])
    (hdig : ∀ c ∈ ts, c.isDigit = true) :
    envFilter e (rollbackTagName b ts) = false := by
  cases e with
  | production =>
    rw [envFilter, parseProdTag_none_of_dash (dash_mem_rollback_drop b ts)]
    rfl
  | staging =>
    rcases rollbackTagName_rev_head (b := b) hne hdig with ⟨c, hc, hcd⟩
    rw [envFilter, endsWithCl_staging_false_of_digit hc hcd, Bool.and_false]
  | development =>
    rcases rollbackTagName_rev_head (b := b) hne hdig with ⟨c, hc, hcd⟩
    rw [envFilter, endsWithCl_dev_false_of_digit hc hcd, Bool.and_false]

theorem matchTag_rollback (e : Env) {b ts : Str} (hne : ts ≠ [])
    (hdig : ∀ c ∈ ts, c.isDigit = true) :
    matchTag e (rollbackTagName b ts) = none := by
  cases e with
  | production =>
    rw [matchTag]
    exact parseProdTag_none_of_dash (dash_mem_rollback_drop b ts)
  | staging =>
    rcases rollbackTagName_rev_head (b := b) hne hdig with ⟨c, hc, hcd⟩
    rw [matchTag, endsWithCl_staging_false_of_digit hc hcd]
    rfl
  | development =>
    rcases rollbackTagName_rev_head (b := b) hne hdig with ⟨c, hc, hcd⟩
    rw [matchTag, endsWithCl_dev_false_of_digit hc hcd]
    rfl

theorem dropWhile_length_le (p : Char → Bool) :
    ∀ l : Str, (l.dropWhile p).length ≤ l.length := by
  intro l
  induction l with
  | nil => simp [List.dropWhile]
  | cons a as ih =>
    rw [List.dropWhile_cons]
    by_cases h : p a = true
    · rw [if_pos h]
      simp only [List.length_cons]
      omega
    · rw [if_neg h]

theorem versCompareAux_fuel :
    ∀ (f1 : Nat) (f2 : Nat) (a b : Str), a.length < f1 → a.length < f2 →
      versCompareAux f1 a b = versCompareAux f2 a b := by
  intro f1
  induction f1 with
  | zero => intro f2 a b h1 _; omega
  | succ f1 ih =>
    intro f2 a b h1 h2
    rcases f2 with _ | f2
    · omega
    rcases a with _ | ⟨c, as⟩
    · rcases b with _ | ⟨d, bs⟩ <;> rfl
    rcases b with _ | ⟨d, bs⟩
    · rfl
    rw [versCompareAux, versCompareAux]
    by_cases hd : (c.isDigit && d.isDigit) = true
    · rw [if_pos hd, if_pos hd]
      have hcd : c.isDigit = true := by
        rcases Bool.and_eq_true_iff.mp hd with ⟨hh, _⟩
        exact hh
      have hdrop : ((c :: as).dropWhile Char.isDigit).length < f1 := by
        rw [List.dropWhile_cons, if_pos hcd]
        have := dropWhile_length_le Char.isDigit as
        simp at h1
        omega
      have hdrop2 : ((c :: as).dropWhile Char.isDigit).length < f2 := by
        rw [List.dropWhile_cons, if_pos hcd]
        have := dropWhile_length_le Char.isDigit as
        simp at h2
        omega
      rcases hcmp : natCmp (digitsToNat ((c :: as).takeWhile Char.isDigit))
          (digitsToNat ((d :: bs).takeWhile Char.isDigit)) with _ | _ | _ <;>
        simp only []
      exact ih f2 _ _ hdrop hdrop2
    · rw [if_neg hd, if_neg hd]
      rcases hcmp : charCmp c d with _ | _ | _ <;> simp only []
      exact ih f2 as bs (by simp at h1; omega) (by simp at h2; omega)

theorem versCompare_cons_char {c : Char} (hc : c.isDigit = false)
    (xs ys : Str) : versCompare (c :: xs) (c :: ys) = versCompare xs ys := by
  rw [versCompare, versCompareAux]
  rw [if_neg (by simp [hc])]
  have hcc : charCmp c c = .eq := by
    rw [charCmp, if_neg (lt_irrefl c), if_pos rfl]
  rw [hcc]
  simp only [List.length_cons]
  exact versCompareAux_fuel (xs.length + 1) (xs.length + 1) xs ys
    (Nat.lt_succ_self _) (Nat.lt_succ_self _)

theorem versCompare_digit_run (m n : Nat) {r1 r2 : Str}
    (h1 : headFails Char.isDigit r1) (h2 : headFails Char.isDigit r2) :
    versCompare (natToDigits m ++ r1) (natToDigits n ++ r2) =
      match natCmp m n with
      | .eq => versCompare r1 r2
      | o => o := by
  rcases hm : natToDigits m with _ | ⟨c, cs⟩
  · exact absurd hm (natToDigits_ne_nil m)
  rcases hn : natToDigits n with _ | ⟨d, ds⟩
  · exact absurd hn (natToDigits_ne_nil n)
  have hmem : ∀ x ∈ (c :: cs : Str), x.isDigit = true := by
    rw [← hm]; exact natToDigits_digits m
  have hnem : ∀ x ∈ (d :: ds : Str), x.isDigit = true := by
    rw [← hn]; exact natToDigits_digits n
  have htw1 : ((c :: cs) ++ r1).takeWhile Char.isDigit = c :: cs :=
    takeWhile_append_of_all hmem h1
  have htw2 : ((d :: ds) ++ r2).takeWhile Char.isDigit = d :: ds :=
    takeWhile_append_of_all hnem h2
  have hdw1 : ((c :: cs) ++ r1).dropWhile Char.isDigit = r1 :=
    dropWhile_append_of_all hmem h1
  have hdw2 : ((d :: ds) ++ r2).dropWhile Char.isDigit = r2 :=
    dropWhile_append_of_all hnem h2
  have hdig1 : digitsToNat (c :: cs) = m := by
    rw [← hm]; exact digitsToNat_natToDigits m
  have hdig2 : digitsToNat (d :: ds) = n := by
    rw [← hn]; exact digitsToNat_natToDigits n
  rw [versCompare]
  rw [show ((c :: cs) ++ r1 : Str) = c :: (cs ++ r1) from rfl,
    show ((d :: ds) ++ r2 : Str) = d :: (ds ++ r2) from rfl]
  rw [versCompareAux]
  rw [if_pos (by simp [hmem c (by simp), hnem d (by simp)])]
  rw [show (c :: (cs ++ r1) : Str) = (c :: cs) ++ r1 from rfl]
  rw [show (d :: (ds ++ r2) : Str) = (d :: ds) ++ r2 from rfl]
  rw [htw1, htw2, hdw1, hdw2, hdig1, hdig2]
  rcases hcmp : natCmp m n with _ | _ | _ <;> simp only []
  refine versCompareAux_fuel _ _ r1 r2 ?_ (Nat.lt_succ_self _)
  simp only [List.length_cons, List.length_append]
  omega

theorem versCompareAux_self :
    ∀ (fuel : Nat) (l : Str), l.length < fuel → versCompareAux fuel l l = .eq := by
  intro fuel
  induction fuel with
  | zero => intro l h; omega
  | succ fuel ih =>
    intro l h
    rcases l with _ | ⟨c, cs⟩
    · rfl
    rw [versCompareAux]
    by_cases hd : (c.isDigit && c.isDigit) = true
    · rw [if_pos hd]
      have hcd : c.isDigit = true := by
        rcases Bool.and_eq_true_iff.mp hd with ⟨hh, _⟩
        exact hh
      have : natCmp (digitsToNat ((c :: cs).takeWhile Char.isDigit))
          (digitsToNat ((c :: cs).takeWhile Char.isDigit)) = .eq := by
        rw [natCmp, if_neg (lt_irrefl _), if_pos rfl]
      rw [this]
      refine ih _ ?_
      rw [List.dropWhile_cons, if_pos hcd]
      have := dropWhile_length_le Char.isDigit cs
      simp only [List.length_cons] at h
      omega
    · rw [if_neg hd]
      have : charCmp c c = .eq := by
        rw [charCmp, if_neg (lt_irrefl c), if_pos rfl]
      rw [this]
      refine ih cs ?_
      simp only [List.length_cons] at h
      omega

theorem versCompare_self (l : Str) : versCompare l l = .eq :=
  versCompareAux_self _ l (Nat.lt_succ_self _)

theorem vcomp_lt_iff (a b : Version) : vcomp a b = .lt ↔ ltV a b := by
  rcases a with ⟨a1, a2, a3⟩
  rcases b with ⟨b1, b2, b3⟩
  simp only [vcomp, natCmp, ltV]
  split_ifs <;> simp_all

theorem vcomp_eq_iff (a b : Version) : vcomp a b = .eq ↔ a = b := by
  rcases a with ⟨a1, a2, a3⟩
  rcases b with ⟨b1, b2, b3⟩
  simp only [vcomp, natCmp, Version.mk.injEq]
  split_ifs <;> simp_all <;> omega

theorem vcomp_gt_iff (a b : Version) : vcomp a b = .gt ↔ ltV b a := by
  rcases a with ⟨a1, a2, a3⟩
  rcases b with ⟨b1, b2, b3⟩
  simp only [vcomp, natCmp, ltV]
  split_ifs <;> simp_all <;> omega

theorem leV_iff (a b : Version) :
    leV a b ↔
      (a.major < b.major ∨
        (a.major = b.major ∧
          (a.minor < b.minor ∨ (a.minor = b.minor ∧ a.patch ≤ b.patch)))) := by
  rcases a with ⟨a1, a2, a3⟩
  rcases b with ⟨b1, b2, b3⟩
  simp only [leV, ltV, Version.mk.injEq]
  constructor
  · rintro (h | h) <;> omega
  · intro h
    omega

theorem leV_refl (a : Version) : leV a a := Or.inr rfl

theorem leV_trans {a b c : Version} (h1 : leV a b) (h2 : leV b c) : leV a c := by
  rw [leV_iff] at h1 h2 ⊢
  omega

theorem leV_of_not_lt {a b : Version} (h : ¬ vcomp a b = .lt) : leV b a := by
  rw [vcomp_lt_iff] at h
  rw [leV_iff]
  simp only [ltV] at h
  omega

theorem leV_of_lt {a b : Version} (h : vcomp a b = .lt) : leV a b := by
  rw [vcomp_lt_iff] at h
  rw [leV_iff]
  simp only [ltV] at h
  omega

theorem leV_antisymm {a b : Version} (h1 : leV a b) (h2 : leV b a) : a = b := by
  rw [leV_iff] at h1 h2
  rcases a with ⟨a1, a2, a3⟩
  rcases b with ⟨b1, b2, b3⟩
  simp only [Version.mk.injEq]
  simp only at h1 h2
  omega

theorem headFails_isDigit_qualifier (e : Env) :
    headFails Char.isDigit (envQualifier e) := by
  cases e with
  | production => exact headFails_nil _
  | staging => exact headFails_cons _ (by decide)
  | development => exact headFails_cons _ (by decide)

theorem versCompare_renderTag (e : Env) (a b : Version) :
    versCompare (renderTag e a) (renderTag e b) = vcomp a b := by
  have hq := headFails_isDigit_qualifier e
  have hdot : ∀ s : Str, headFails Char.isDigit ('.' :: s) :=
    fun s => headFails_cons s (by decide)
  have hshape : ∀ v : Version, renderTag e v =
      'v' :: (natToDigits v.major ++ ('.' :: (natToDigits v.minor ++
        ('.' :: (natToDigits v.patch ++ envQualifier e))))) := by
    intro v
    simp [renderTag, deployTagOf, renderVersion]
  rw [hshape a, hshape b, versCompare_cons_char (by decide)]
  rw [versCompare_digit_run a.major b.major (hdot _) (hdot _)]
  rw [vcomp]
  rcases natCmp a.major b.major with _ | _ | _ <;> simp only []
  rw [versCompare_cons_char (by decide)]
  rw [versCompare_digit_run a.minor b.minor (hdot _) (hdot _)]
  rcases natCmp a.minor b.minor with _ | _ | _ <;> simp only []
  rw [versCompare_cons_char (by decide)]
  rw [versCompare_digit_run a.patch b.patch hq hq]
  rcases natCmp a.patch b.patch with _ | _ | _ <;> simp only []
  exact versCompare_self _

theorem foldl_sstep_map (e : Env) :
    ∀ (vl : List Version) (acc : Option Version),
      (vl.map (renderTag e)).foldl sstep (acc.map (renderTag e)) =
        (vl.foldl vstep acc).map (renderTag e) := by
  intro vl
  induction vl with
  | nil => intro acc; rfl
  | cons v vs ih =>
    intro acc
    rw [List.map_cons, List.foldl_cons, List.foldl_cons]
    have hstep : sstep (acc.map (renderTag e)) (renderTag e v) =
        (vstep acc v).map (renderTag e) := by
      rcases acc with _ | m
      · rfl
      · show sstep (some (renderTag e m)) (renderTag e v) =
          Option.map (renderTag e) (vstep (some m) v)
        simp only [sstep, vstep]
        rw [versCompare_renderTag]
        by_cases h : vcomp m v = .lt
        · rw [if_pos h, if_pos h]
          rfl
        · rw [if_neg h, if_neg h]
          rfl
    rw [hstep, ih]

theorem lastSortV_map (e : Env) (vl : List Version) :
    lastSortV (vl.map (renderTag e)) = (listMaxV vl).map (renderTag e) := by
  have := foldl_sstep_map e vl none
  simpa [lastSortV, listMaxV] using this

theorem foldl_vstep_spec :
    ∀ (l : List Version) (m0 : Version),
      ∃ m, l.foldl vstep (some m0) = some m ∧ (m = m0 ∨ m ∈ l) ∧
        leV m0 m ∧ ∀ u ∈ l, leV u m := by
  intro l
  induction l with
  | nil =>
    intro m0
    exact ⟨m0, rfl, Or.inl rfl, leV_refl m0, by simp⟩
  | cons v vs ih =>
    intro m0
    rw [List.foldl_cons]
    by_cases h : vcomp m0 v = .lt
    · rw [show vstep (some m0) v = some v by simp only [vstep]; rw [if_pos h]]
      rcases ih v with ⟨m, hfold, hmem, hlev, hall⟩
      refine ⟨m, hfold, ?_, ?_, ?_⟩
      · rcases hmem with rfl | hmem
        · exact Or.inr (by simp)
        · exact Or.inr (by simp [hmem])
      · exact leV_trans (leV_of_lt h) hlev
      · intro u hu
        rcases List.mem_cons.mp hu with rfl | hu
        · exact hlev
        · exact hall u hu
    · rw [show vstep (some m0) v = some m0 by simp only [vstep]; rw [if_neg h]]
      rcases ih m0 with ⟨m, hfold, hmem, hlev, hall⟩
      refine ⟨m, hfold, ?_, hlev, ?_⟩
      · rcases hmem with rfl | hmem
        · exact Or.inl rfl
        · exact Or.inr (by simp [hmem])
      · intro u hu
        rcases List.mem_cons.mp hu with rfl | hu
        · exact leV_trans (leV_of_not_lt h) hlev
        · exact hall u hu

theorem listMaxV_spec {l : List Version} (h : l ≠ []) :
    ∃ m, listMaxV l = some m ∧ m ∈ l ∧ ∀ u ∈ l, leV u m := by
  rcases l with _ | ⟨v, vs⟩
  · exact absurd rfl h
  rw [listMaxV, List.foldl_cons]
  rw [show vstep none v = some v from rfl]
  rcases foldl_vstep_spec vs v with ⟨m, hfold, hmem, hlev, hall⟩
  refine ⟨m, hfold, ?_, ?_⟩
  · rcases hmem with rfl | hmem
    · simp
    · simp [hmem]
  · intro u hu
    rcases List.mem_cons.mp hu with rfl | hu
    · exact hlev
    · exact hall u hu

theorem listMaxV_nil : listMaxV [] = none := rfl

theorem filter_track (e : Env) :
    ∀ (tags : List Str), (∀ t ∈ tags, WellFormedTag t) →
      tags.filter (envFilter e) = (trackVersions e tags).map (renderTag e) := by
  intro tags
  induction tags with
  | nil => intro _; rfl
  | cons t ts ih =>
    intro hw
    have hwt := hw t (by simp)
    have hwts : ∀ u ∈ ts, WellFormedTag u := fun u hu => hw u (by simp [hu])
    rw [trackVersions, List.filterMap_cons, List.filter_cons]
    rcases hwt with ⟨e2, v⟩ | ⟨e2, v, ts2, hne, hdig⟩
    · by_cases he : e = e2
      · subst he
        rw [matchTag_self, envFilter_self]
        simp only [if_true, List.map_cons]
        rw [ih hwts, trackVersions]
      · rw [matchTag_other v he, envFilter_other v he]
        simp only [Bool.false_eq_true, if_false]
        rw [ih hwts, trackVersions]
    · rw [matchTag_rollback e hne hdig, envFilter_rollback e hne hdig]
      simp only [Bool.false_eq_true, if_false]
      rw [ih hwts, trackVersions]

theorem get_latest_spec (e : Env) (tags : List Str)
    (hw : ∀ t ∈ tags, WellFormedTag t) :
    (trackVersions e tags = [] ∧ get_latest_version e tags = ("v0.0.0".data)) ∨
      (∃ m, m ∈ trackVersions e tags ∧
        get_latest_version e tags = renderTag e m ∧
        ∀ u ∈ trackVersions e tags, leV u m) := by
  rw [get_latest_version, filter_track e tags hw, lastSortV_map]
  by_cases h : trackVersions e tags = []
  · rw [h]
    exact Or.inl ⟨rfl, rfl⟩
  · rcases listMaxV_spec h with ⟨m, hmax, hmem, hall⟩
    rw [hmax]
    exact Or.inr ⟨m, hmem, rfl, hall⟩

/-- C1: for every environment and every tag set written by the engine,
`get_latest_version` returns the rendered maximum version under the
`(major, minor, patch)` ordering among the tags of that environment's track
(production: bare `vM.N.P` tags; staging: `-staging` suffix; development:
`-dev` suffix), and returns `v0.0.0` when the track is empty. -/
theorem c1_get_latest_version_max (e : Env) (tags : List Str)
    (hw : ∀ t ∈ tags, WellFormedTag t) :
    (trackVersions e tags = [] ∧ get_latest_version e tags = ("v0.0.0".data)) ∨
      (∃ m, m ∈ trackVersions e tags ∧
        get_latest_version e tags = renderTag e m ∧
        ∀ u ∈ trackVersions e tags, leV u m) :=
  get_latest_spec e tags hw

/-- Witness for C1 at the spec's own example: tag set
`{v1.0.0, v1.1.0, v1.1.0-dev}` for environment production. -/
theorem c1_get_latest_version_max_witness :
    (trackVersions .production
        [("v1.0.0".data), ("v1.1.0".data), ("v1.1.0-dev".data)] = [] ∧
      get_latest_version .production
        [("v1.0.0".data), ("v1.1.0".data), ("v1.1.0-dev".data)] =
          ("v0.0.0".data)) ∨
      (∃ m, m ∈ trackVersions .production
          [("v1.0.0".data), ("v1.1.0".data), ("v1.1.0-dev".data)] ∧
        get_latest_version .production
          [("v1.0.0".data), ("v1.1.0".data), ("v1.1.0-dev".data)] =
            renderTag .production m ∧
        ∀ u ∈ trackVersions .production
          [("v1.0.0".data), ("v1.1.0".data), ("v1.1.0-dev".data)], leV u m) := by
  refine c1_get_latest_version_max .production _ ?_
  intro t ht
  simp only [List.mem_cons, List.not_mem_nil, or_false] at ht
  rcases ht with rfl | rfl | rfl
  · exact (show WellFormedTag ("v1.0.0".data) from
      (show renderTag .production ⟨1, 0, 0⟩ = ("v1.0.0".data) by decide) ▸
        WellFormedTag.env .production ⟨1, 0, 0⟩)
  · exact (show WellFormedTag ("v1.1.0".data) from
      (show renderTag .production ⟨1, 1, 0⟩ = ("v1.1.0".data) by decide) ▸
        WellFormedTag.env .production ⟨1, 1, 0⟩)
  · exact (show WellFormedTag ("v1.1.0-dev".data) from
      (show renderTag .development ⟨1, 1, 0⟩ = ("v1.1.0-dev".data) by decide) ▸
        WellFormedTag.env .development ⟨1, 1, 0⟩)

/-- C2: on a production deploy, when the operator's typed confirmation
differs from the exact string `DEPLOY <tag>` echoing the tag about to be
created, the invocation aborts with the git state untouched: no tag is
created and nothing is pushed (deploy.sh v3.0 lines 904-924; tag creation
only happens later in `deploy_version`). -/
theorem c2_production_confirmation_gate (rebuild_mode : Bool)
    (specific_version : Option Str) (choice : VersionChoice) (typed : Str)
    (preview_mode enable_preview proceed_reply : Bool)
    (cchoice : CollisionChoice) (st : GitState) (nv : Str) (rb : Bool)
    (hres : resolve_new_version rebuild_mode specific_version choice
      (get_latest_version .production (tagNames st)) = .ok nv rb)
    (htyped : typed ≠ ("DEPLOY v".data ++ nv)) :
    main_deploy .production rebuild_mode specific_version choice typed
      preview_mode enable_preview proceed_reply cchoice st =
      (st, .confirmAborted) := by
  rw [main_deploy]
  rw [hres]
  simp [htyped]
  intro h
  exact absurd h htyped

/-- Witness for C2: a production deploy of explicit version 1.0.0 with the
typed reply `nope` aborts and leaves an empty repository empty. -/
theorem c2_production_confirmation_gate_witness :
    main_deploy .production false (some ("1.0.0".data)) .vpatch ("nope".data)
      false false true .cancel ⟨[], [], 7⟩ = (⟨[], [], 7⟩, .confirmAborted) :=
  c2_production_confirmation_gate false (some ("1.0.0".data)) .vpatch
    ("nope".data) false false true .cancel ⟨[], [], 7⟩ ("1.0.0".data) false
    (by decide) (by decide)

theorem lookupTag_cons (p : Str × Nat) (l : List (Str × Nat)) (n : Str) :
    lookupTag (p :: l) n = if p.1 = n then some p.2 else lookupTag l n := by
  by_cases h : p.1 = n
  · rw [if_pos h, lookupTag, List.find?_cons_of_pos _ (by simp [h])]
    rfl
  · rw [if_neg h, lookupTag, List.find?_cons_of_neg _ (by simp [h])]
    rfl

theorem lookupTag_filter_append_self (l : List (Str × Nat)) (n : Str) (c : Nat) :
    lookupTag (l.filter (fun p => !(p.1 = n : Bool)) ++ [(n, c)]) n = some c := by
  induction l with
  | nil => simp [lookupTag, List.find?]
  | cons p ps ih =>
    rw [List.filter_cons]
    by_cases h : p.1 = n
    · rw [if_neg (by simp [h])]
      exact ih
    · rw [if_pos (by simp [h])]
      rw [List.cons_append, lookupTag_cons, if_neg h]
      exact ih

theorem lookupTag_filter_append_other (l : List (Str × Nat)) {n n2 : Str}
    (c : Nat) (h : n2 ≠ n) :
    lookupTag (l.filter (fun p => !(p.1 = n : Bool)) ++ [(n, c)]) n2 =
      lookupTag l n2 := by
  induction l with
  | nil =>
    simp only [List.filter_nil, List.nil_append]
    rw [lookupTag_cons, if_neg (by simpa using fun hh => h hh.symm)]
  | cons p ps ih =>
    rw [List.filter_cons]
    by_cases hp : p.1 = n
    · rw [if_neg (by simp [hp])]
      rw [ih, lookupTag_cons, if_neg (by rw [hp]; exact fun hh => h hh.symm)]
    · rw [if_pos (by simp [hp])]
      rw [List.cons_append, lookupTag_cons, lookupTag_cons]
      by_cases h2 : p.1 = n2
      · rw [if_pos h2, if_pos h2]
      · rw [if_neg h2, if_neg h2]
        exact ih

theorem lookupTag_append_left_some {l : List (Str × Nat)} (l2 : List (Str × Nat))
    {n : Str} {c : Nat} (h : lookupTag l n = some c) :
    lookupTag (l ++ l2) n = some c := by
  induction l with
  | nil => simp [lookupTag, List.find?] at h
  | cons p ps ih =>
    rw [List.cons_append, lookupTag_cons]
    rw [lookupTag_cons] at h
    by_cases hp : p.1 = n
    · rw [if_pos hp]
      rw [if_pos hp] at h
      exact h
    · rw [if_neg hp]
      rw [if_neg hp] at h
      exact ih h

theorem lookupTag_none_of_any_false {l : List (Str × Nat)} {n : Str}
    (h : (l.any fun p => (p.1 = n : Bool)) = false) : lookupTag l n = none := by
  induction l with
  | nil => rfl
  | cons p ps ih =>
    rw [List.any_cons] at h
    rcases Bool.or_eq_false_iff.mp h with ⟨h1, h2⟩
    rw [lookupTag_cons, if_neg (by simpa using h1)]
    exact ih h2

theorem lookupTag_none_of_not_exists {st : GitState} {n : Str}
    (h : tagExists st n = false) : lookupTag st.localTags n = none := by
  rw [tagExists] at h
  exact lookupTag_none_of_any_false h

theorem lookupTag_append_right {l : List (Str × Nat)} {n : Str} (c : Nat)
    (h : lookupTag l n = none) :
    lookupTag (l ++ [(n, c)]) n = some c := by
  induction l with
  | nil => simp [lookupTag, List.find?]
  | cons p ps ih =>
    rw [lookupTag_cons] at h
    by_cases hp : p.1 = n
    · rw [if_pos hp] at h
      exact absurd h (by simp)
    · rw [if_neg hp] at h
      rw [List.cons_append, lookupTag_cons, if_neg hp]
      exact ih h

theorem lookupTag_append_other {l : List (Str × Nat)} {n n2 : Str} (c : Nat)
    (h : n2 ≠ n) :
    lookupTag (l ++ [(n, c)]) n2 = lookupTag l n2 := by
  induction l with
  | nil =>
    simp only [List.nil_append]
    rw [lookupTag_cons, if_neg (by simpa using fun hh => h hh.symm)]
  | cons p ps ih =>
    rw [List.cons_append, lookupTag_cons, lookupTag_cons]
    by_cases hp : p.1 = n2
    · rw [if_pos hp, if_pos hp]
    · rw [if_neg hp, if_neg hp]
      exact ih

/-- C3: when the rendered tag already exists and rebuild was not requested,
`deploy_version` never overwrites it silently: the collision prompt's three
resolutions behave as offered (force-rebuild re-points the tag locally and
remotely at `HEAD` and touches no other tag; choosing a different version or
cancelling leaves the state untouched; an unrecognized reply falls through to
a failing `git tag -a` with no mutation), and on the collision-free path
every pre-existing tag keeps its commit, so the collision path's
force-rebuild is the only way an existing tag is ever re-pointed. -/
theorem c3_collision_never_silent (version : Str) (e : Env) (st : GitState)
    (hex : tagExists st (deployTagOf e version) = true) :
    (deploy_version version e false .differentVersion st =
      (st, .exitOkNoChange)) ∧
    (deploy_version version e false .cancel st = (st, .cancelled)) ∧
    (∀ s, deploy_version version e false (.invalid s) st =
      (st, .tagCreateFailed)) ∧
    (deploy_version version e false .forceRebuild st =
      (force_rebuild_tag (deployTagOf e version) st,
        .deployed (deployTagOf e version)) ∧
      lookupTag (force_rebuild_tag (deployTagOf e version) st).localTags
        (deployTagOf e version) = some st.head ∧
      lookupTag (force_rebuild_tag (deployTagOf e version) st).remoteTags
        (deployTagOf e version) = some st.head ∧
      ∀ n, n ≠ deployTagOf e version →
        lookupTag (force_rebuild_tag (deployTagOf e version) st).localTags n =
          lookupTag st.localTags n ∧
        lookupTag (force_rebuild_tag (deployTagOf e version) st).remoteTags n =
          lookupTag st.remoteTags n) ∧
    (∀ version2 cchoice2,
      tagExists st (deployTagOf e version2) = false →
      ∀ n c, lookupTag st.localTags n = some c →
        lookupTag (deploy_version version2 e false cchoice2 st).1.localTags n =
          some c) := by
  refine ⟨?_, ?_, ?_, ⟨?_, ?_, ?_, ?_⟩, ?_⟩
  · simp [deploy_version, hex]
  · simp [deploy_version, hex]
  · intro s
    simp [deploy_version, hex]
  · simp [deploy_version, hex]
  · rw [force_rebuild_tag]
    exact lookupTag_filter_append_self _ _ _
  · rw [force_rebuild_tag]
    exact lookupTag_filter_append_self _ _ _
  · intro n hn
    rw [force_rebuild_tag]
    exact ⟨lookupTag_filter_append_other _ _ hn,
      lookupTag_filter_append_other _ _ hn⟩
  · intro version2 cchoice2 hex2 n c hc
    simp only [deploy_version, hex2, Bool.false_eq_true, if_false]
    exact lookupTag_append_left_some _ hc

/-- Witness for C3 on a one-tag repository where `v1.0.0-dev` already
exists. -/
theorem c3_collision_never_silent_witness :
    (deploy_version ("1.0.0".data) .development false .differentVersion
      ⟨[(("v1.0.0-dev".data), 4)], [(("v1.0.0-dev".data), 4)], 9⟩ =
      (⟨[(("v1.0.0-dev".data), 4)], [(("v1.0.0-dev".data), 4)], 9⟩,
        .exitOkNoChange)) ∧
    (deploy_version ("1.0.0".data) .development false .cancel
      ⟨[(("v1.0.0-dev".data), 4)], [(("v1.0.0-dev".data), 4)], 9⟩ =
      (⟨[(("v1.0.0-dev".data), 4)], [(("v1.0.0-dev".data), 4)], 9⟩,
        .cancelled)) := by
  have h := c3_collision_never_silent ("1.0.0".data) .development
    ⟨[(("v1.0.0-dev".data), 4)], [(("v1.0.0-dev".data), 4)], 9⟩ (by decide)
  exact ⟨h.1, h.2.1⟩

theorem renderVersion_chars (v : Version) :
    ∀ c ∈ renderVersion v, c.isDigit = true ∨ c = '.' := by
  intro c hc
  rw [renderVersion] at hc
  rcases List.mem_append.mp hc with h12 | h3
  · rcases List.mem_append.mp h12 with h1 | h2
    · exact Or.inl (natToDigits_digits _ c h1)
    · rcases List.mem_cons.mp h2 with rfl | hb
      · exact Or.inr rfl
      · exact Or.inl (natToDigits_digits _ c hb)
  · rcases List.mem_cons.mp h3 with rfl | hp
    · exact Or.inr rfl
    · exact Or.inl (natToDigits_digits _ c hp)

theorem renderVersion_no_dash (v : Version) : ∀ c ∈ renderVersion v, ¬ c = '-' := by
  intro c hc hdash
  subst hdash
  rcases renderVersion_chars v '-' hc with h | h
  · simp at h
  · simp at h

theorem stripAfterLastDash_no_dash {t : Str} (h : ∀ c ∈ t, ¬ c = '-') :
    stripAfterLastDash t = t := by
  rw [stripAfterLastDash]
  have hdrop : t.reverse.dropWhile (fun c => !(c = '-' : Bool)) = [] := by
    rw [List.dropWhile_eq_nil_iff]
    intro c hc
    simp [h c (List.mem_reverse.mp hc)]
  rw [hdrop]

theorem stripAfterLastDash_append_dash {x y : Str} (hy : ∀ c ∈ y, ¬ c = '-') :
    stripAfterLastDash (x ++ '-' :: y) = x := by
  rw [stripAfterLastDash]
  have hrev : (x ++ '-' :: y).reverse = y.reverse ++ '-' :: x.reverse := by
    rw [List.reverse_append, List.reverse_cons, List.append_assoc]
    rfl
  rw [hrev]
  have hdrop : (y.reverse ++ '-' :: x.reverse).dropWhile
      (fun c => !(c = '-' : Bool)) = '-' :: x.reverse := by
    refine dropWhile_append_of_all ?_ ?_
    · intro c hc
      simp [hy c (List.mem_reverse.mp hc)]
    · intro c hc
      simp only [List.head?_cons, Option.some.injEq] at hc
      subst hc
      simp
  rw [hdrop]
  simp

theorem rebuild_tag_roundtrip (e : Env) (m : Version) :
    deployTagOf e (current_version_of (renderTag e m)) = renderTag e m := by
  have hv : ∀ x : Str, stripVPrefix ('v' :: x) = x := fun _ => rfl
  have hstrip : current_version_of (renderTag e m) = renderVersion m := by
    rw [current_version_of, renderTag, deployTagOf, List.cons_append, hv]
    cases e with
    | production =>
      rw [show envQualifier .production = ([] : Str) from rfl, List.append_nil]
      exact stripAfterLastDash_no_dash (renderVersion_no_dash m)
    | staging =>
      rw [show envQualifier .staging = '-' :: ("staging".data) from rfl]
      exact stripAfterLastDash_append_dash (by decide)
    | development =>
      rw [show envQualifier .development = '-' :: ("dev".data) from rfl]
      exact stripAfterLastDash_append_dash (by decide)
  rw [hstrip, renderTag]

theorem matchTag_wf_eq {e : Env} {t : Str} {m : Version}
    (hw : WellFormedTag t) (h : matchTag e t = some m) : t = renderTag e m := by
  rcases hw with ⟨e2, v⟩ | ⟨e2, v, ts2, hne, hdig⟩
  · by_cases he : e = e2
    · subst he
      rw [matchTag_self] at h
      injection h with h
      rw [h]
    · rw [matchTag_other v he] at h
      simp at h
  · rw [matchTag_rollback e hne hdig] at h
    simp at h

theorem mem_names_filter {l : List (Str × Nat)} {t tag : Str} :
    t ∈ (l.filter (fun p => !(p.1 = tag : Bool))).map (fun p => p.1) ↔
      (t ∈ l.map (fun p => p.1) ∧ t ≠ tag) := by
  constructor
  · intro h
    rcases List.mem_map.mp h with ⟨p, hp, rfl⟩
    rcases List.mem_filter.mp hp with ⟨hmem, hcond⟩
    refine ⟨List.mem_map.mpr ⟨p, hmem, rfl⟩, ?_⟩
    simpa using hcond
  · rintro ⟨h, hne⟩
    rcases List.mem_map.mp h with ⟨p, hp, rfl⟩
    refine List.mem_map.mpr ⟨p, List.mem_filter.mpr ⟨hp, by simpa using hne⟩, rfl⟩

/-- C4: a rebuild (`rebuild=true`) of an environment with an existing
deployment re-creates exactly the latest tag string of that environment —
same version triple, same qualifier — re-pointed at `HEAD`, touches no other
tag, and `get_latest_version` afterwards returns the same tag as before. -/
theorem c4_rebuild_preserves_tag (e : Env) (st : GitState) (sv : Option Str)
    (choice : VersionChoice) (pr : Bool) (cc : CollisionChoice) (typed : Str)
    (hw : ∀ t ∈ tagNames st, WellFormedTag t)
    (hne : trackVersions e (tagNames st) ≠ [])
    (htyped : typed = ("DEPLOY v".data ++
      current_version_of (get_latest_version e (tagNames st)))) :
    main_deploy e true sv choice typed false false pr cc st =
      (force_rebuild_tag (get_latest_version e (tagNames st)) st,
        .ran (.deployed (get_latest_version e (tagNames st)))) ∧
    lookupTag
        (force_rebuild_tag (get_latest_version e (tagNames st)) st).localTags
        (get_latest_version e (tagNames st)) = some st.head ∧
    (∀ n, n ≠ get_latest_version e (tagNames st) →
      lookupTag
          (force_rebuild_tag (get_latest_version e (tagNames st)) st).localTags
          n = lookupTag st.localTags n) ∧
    get_latest_version e
        (tagNames (force_rebuild_tag (get_latest_version e (tagNames st)) st)) =
      get_latest_version e (tagNames st) := by
  rcases get_latest_spec e (tagNames st) hw with ⟨hempty, _⟩ | ⟨m, hmem, hL, hmax⟩
  · exact absurd hempty hne
  have htag : deployTagOf e
      (current_version_of (get_latest_version e (tagNames st))) =
      get_latest_version e (tagNames st) := by
    rw [hL]
    exact rebuild_tag_roundtrip e m
  refine ⟨?_, ?_, ?_, ?_⟩
  · rw [main_deploy]
    rw [show resolve_new_version true sv choice
        (get_latest_version e (tagNames st)) =
        .ok (current_version_of (get_latest_version e (tagNames st))) true from
      by simp [resolve_new_version]]
    simp only []
    rw [if_neg (fun h => h.2 htyped)]
    rw [if_neg (by simp)]
    rw [if_neg (by simp)]
    have hdep : deploy_version
        (current_version_of (get_latest_version e (tagNames st))) e true cc st =
        (force_rebuild_tag (deployTagOf e
          (current_version_of (get_latest_version e (tagNames st)))) st,
         .deployed (deployTagOf e
          (current_version_of (get_latest_version e (tagNames st))))) := rfl
    rw [hdep, htag]
  · exact lookupTag_filter_append_self st.localTags _ st.head
  · intro n hn
    exact lookupTag_filter_append_other st.localTags st.head hn
  · have hLmem : get_latest_version e (tagNames st) ∈ tagNames st := by
      rw [trackVersions] at hmem
      rcases List.mem_filterMap.mp hmem with ⟨t, ht, hmt⟩
      have hteq := matchTag_wf_eq (hw t ht) hmt
      rw [hL, ← hteq]
      exact ht
    have hnames : tagNames
        (force_rebuild_tag (get_latest_version e (tagNames st)) st) =
        (st.localTags.filter
          (fun p => !(p.1 = get_latest_version e (tagNames st) : Bool))).map
            (fun p => p.1) ++ [get_latest_version e (tagNames st)] := by
      simp [tagNames, force_rebuild_tag]
    have hmemiff : ∀ t,
        t ∈ tagNames (force_rebuild_tag (get_latest_version e (tagNames st)) st) ↔
        t ∈ tagNames st := by
      intro t
      rw [hnames, List.mem_append]
      constructor
      · rintro (h1 | h1)
        · exact (mem_names_filter.mp h1).1
        · rcases List.mem_singleton.mp h1 with rfl
          exact hLmem
      · intro h1
        by_cases ht : t = get_latest_version e (tagNames st)
        · exact Or.inr (by simp [ht])
        · exact Or.inl (mem_names_filter.mpr ⟨h1, ht⟩)
    have hwA : ∀ t ∈ tagNames
        (force_rebuild_tag (get_latest_version e (tagNames st)) st),
        WellFormedTag t := fun t ht => hw t ((hmemiff t).mp ht)
    have htrack : ∀ u,
        u ∈ trackVersions e
          (tagNames (force_rebuild_tag (get_latest_version e (tagNames st)) st)) ↔
        u ∈ trackVersions e (tagNames st) := by
      intro u
      rw [trackVersions, trackVersions]
      constructor
      · intro hu
        rcases List.mem_filterMap.mp hu with ⟨t, ht, hmt⟩
        exact List.mem_filterMap.mpr ⟨t, (hmemiff t).mp ht, hmt⟩
      · intro hu
        rcases List.mem_filterMap.mp hu with ⟨t, ht, hmt⟩
        exact List.mem_filterMap.mpr ⟨t, (hmemiff t).mpr ht, hmt⟩
    rcases get_latest_spec e
        (tagNames (force_rebuild_tag (get_latest_version e (tagNames st)) st))
        hwA with ⟨hempty2, _⟩ | ⟨m2, hmem2, hL2, hmax2⟩
    · have hm : m ∈ trackVersions e
          (tagNames (force_rebuild_tag (get_latest_version e (tagNames st)) st)) :=
        (htrack m).mpr hmem
      rw [hempty2] at hm
      simp at hm
    · have h1 : leV m2 m := hmax m2 ((htrack m2).mp hmem2)
      have h2 : leV m m2 := hmax2 m ((htrack m).mpr hmem)
      have heq : m2 = m := leV_antisymm h1 h2
      rw [hL2, heq, ← hL]

/-- Witness for C4 at the spec's rebuild scenario: environment staging, latest
tag `v2.0.0-staging`, rebuild pushes the identical tag string re-pointed at
the current commit, and the latest staging version is unchanged. -/
theorem c4_rebuild_preserves_tag_witness :
    main_deploy .staging true none .vpatch ("DEPLOY v2.0.0".data) false false
      true .cancel
      ⟨[(("v2.0.0-staging".data), 5)], [(("v2.0.0-staging".data), 5)], 9⟩ =
      (force_rebuild_tag ("v2.0.0-staging".data)
        ⟨[(("v2.0.0-staging".data), 5)], [(("v2.0.0-staging".data), 5)], 9⟩,
        .ran (.deployed ("v2.0.0-staging".data))) ∧
    get_latest_version .staging
      (tagNames (force_rebuild_tag ("v2.0.0-staging".data)
        ⟨[(("v2.0.0-staging".data), 5)], [(("v2.0.0-staging".data), 5)], 9⟩)) =
      ("v2.0.0-staging".data) := by
  have h := c4_rebuild_preserves_tag .staging
    ⟨[(("v2.0.0-staging".data), 5)], [(("v2.0.0-staging".data), 5)], 9⟩
    none .vpatch true .cancel ("DEPLOY v2.0.0".data)
    (by
      intro t ht
      simp only [tagNames, List.map_cons, List.map_nil, List.mem_singleton] at ht
      subst ht
      exact (show WellFormedTag ("v2.0.0-staging".data) from
        (show renderTag .staging ⟨2, 0, 0⟩ = ("v2.0.0-staging".data) by decide) ▸
          WellFormedTag.env .staging ⟨2, 0, 0⟩))
    (by decide)
    (by decide)
  exact ⟨h.1, h.2.2.2⟩

/-- Counterexample to C5 as stated: for the unrecognized increment kind
`release`, `increment_version` does not fail — the bash `case` statement has
no default branch, so the function echoes the version triple unchanged, i.e.
it does return a version. -/
theorem c5_unknown_kind_counterexample :
    ("release" ≠ "major" ∧ "release" ≠ "minor" ∧ "release" ≠ "patch") ∧
    incrementVersion ⟨1, 2, 3⟩ "release" = ⟨1, 2, 3⟩ := by
  exact ⟨⟨by decide, by decide, by decide⟩, rfl⟩

/-- C5 (amended): `major`, `minor` and `patch` bump and zero exactly the
expected fields; every other increment kind returns the version unchanged
(no `InvalidIncrementKind` error exists in the code). -/
theorem c5_increment_cases (v : Version) :
    incrementVersion v "major" = ⟨v.major + 1, 0, 0⟩ ∧
    incrementVersion v "minor" = ⟨v.major, v.minor + 1, 0⟩ ∧
    incrementVersion v "patch" = ⟨v.major, v.minor, v.patch + 1⟩ ∧
    ∀ k, k ≠ "major" → k ≠ "minor" → k ≠ "patch" → incrementVersion v k = v := by
  refine ⟨rfl, rfl, rfl, ?_⟩
  intro k h1 h2 h3
  rw [incrementVersion.eq_def]
  split <;> simp_all

/-- Witness for C5 (amended) at the triple (1, 2, 3) with the unrecognized
kind `rollout`. -/
theorem c5_increment_cases_witness :
    incrementVersion ⟨1, 2, 3⟩ "major" = ⟨2, 0, 0⟩ ∧
    incrementVersion ⟨1, 2, 3⟩ "minor" = ⟨1, 3, 0⟩ ∧
    incrementVersion ⟨1, 2, 3⟩ "patch" = ⟨1, 2, 4⟩ ∧
    incrementVersion ⟨1, 2, 3⟩ "rollout" = ⟨1, 2, 3⟩ := by
  have h := c5_increment_cases ⟨1, 2, 3⟩
  exact ⟨h.1, h.2.1, h.2.2.1,
    h.2.2.2 "rollout" (by decide) (by decide) (by decide)⟩

/-- Counterexample to C6 as stated: the explicit `--version` argument is not
validated anywhere — a value that fails `^[0-9]+\.[0-9]+\.[0-9]+$` flows
straight through `main` and a tag built from it is created and pushed, with
no `ValidationError`. -/
theorem c6_version_flag_unvalidated_counterexample :
    (parseVersionTriple ("garbage".data)).isSome = false ∧
    main_deploy .development false (some ("garbage".data)) .vpatch [] false
      false true .cancel ⟨[], [], 7⟩ =
      (⟨[(("vgarbage-dev".data), 7)], [(("vgarbage-dev".data), 7)], 7⟩,
        .ran (.deployed ("vgarbage-dev".data))) := by
  exact ⟨by decide, by decide⟩

/-- C6 (amended): a custom version typed at the interactive prompt is
validated against `^[0-9]+\.[0-9]+\.[0-9]+$`, and a rejected one aborts the
invocation before any tag is created, with the git state untouched; an
explicit `--version` argument, however, is adopted verbatim with no
validation. -/
theorem c6_explicit_version_validation (s : Str) (e : Env) (typed : Str)
    (pm ep pr : Bool) (cc : CollisionChoice) (st : GitState)
    (choice : VersionChoice) :
    (parseVersionTriple s = none →
      main_deploy e false none (.custom s) typed pm ep pr cc st =
        (st, .resolveAborted .invalidFormat)) ∧
    (∀ v, parseVersionTriple s = some v →
      resolve_new_version false none (.custom s)
        (get_latest_version e (tagNames st)) = .ok s false) ∧
    resolve_new_version false (some s) choice
      (get_latest_version e (tagNames st)) = .ok s false := by
  refine ⟨?_, ?_, ?_⟩
  · intro hnone
    rw [main_deploy]
    rw [show resolve_new_version false none (.custom s)
        (get_latest_version e (tagNames st)) = .invalidFormat from
      by simp [resolve_new_version, hnone]]
  · intro v hv
    simp [resolve_new_version, hv]
  · simp [resolve_new_version]

/-- Witness for C6 (amended): the malformed custom version `2.x` aborts with
the state untouched, while the same string as a `--version` argument is
adopted verbatim. -/
theorem c6_explicit_version_validation_witness :
    main_deploy .development false none (.custom ("2.x".data)) [] false false
      true .cancel ⟨[], [], 3⟩ =
      (⟨[], [], 3⟩, .resolveAborted .invalidFormat) ∧
    resolve_new_version false (some ("2.x".data)) .vpatch
      (get_latest_version .development (tagNames ⟨[], [], 3⟩)) =
      .ok ("2.x".data) false := by
  have h := c6_explicit_version_validation ("2.x".data) .development [] false
    false true .cancel ⟨[], [], 3⟩ .vpatch
  exact ⟨h.1 (by decide), h.2.2⟩

/-- C7: a rollback whose normalized target environment is staging fails with
the staging-allow-list refusal for every service outside the fixed allow-list,
before any tag is created and regardless of the repository's tag state. -/
theorem c7_staging_allowlist_guard (service : String) (environment : String)
    (version : Option Str) (sel : Nat) (confirm_reply : String)
    (skip_confirm : Bool) (user : String) (ts : Str) (st : GitState)
    (henv : normalize_env environment = "staging")
    (hsvc : has_staging_environment service = false) :
    rollback_main service environment version sel confirm_reply skip_confirm
      user ts st = (st, .stagingRefused) := by
  simp [rollback_main, henv, hsvc]

/-- Witness for C7: service `fulfillment-api` is not on the allow-list, so a
staging rollback is refused even though a staging tag exists. -/
theorem c7_staging_allowlist_guard_witness :
    rollback_main "fulfillment-api" "staging" (some ("v1.0.0-staging".data)) 0
      "yes" false "alice" ("1724850000".data)
      ⟨[(("v1.0.0-staging".data), 4)], [(("v1.0.0-staging".data), 4)], 9⟩ =
      (⟨[(("v1.0.0-staging".data), 4)], [(("v1.0.0-staging".data), 4)], 9⟩,
        .stagingRefused) :=
  c7_staging_allowlist_guard "fulfillment-api" "staging"
    (some ("v1.0.0-staging".data)) 0 "yes" false "alice" ("1724850000".data)
    ⟨[(("v1.0.0-staging".data), 4)], [(("v1.0.0-staging".data), 4)], 9⟩
    (by decide) (by decide)

/-- Counterexample to C8 as stated: rolling production back from `v3.0.0` to
`v2.5.0` produces the annotation `Rollback to v2.5.0 on production by alice`
— the message names the version rolled back to, but the version rolled back
from (`v3.0.0`) appears nowhere in it (the `perform_rollback` function is
never even given the from-version). -/
theorem c8_message_counterexample :
    (rollback_main "my-service" "production" (some ("v2.5.0".data)) 0 "yes"
      false "alice" ("1724850000".data)
      ⟨[(("v3.0.0".data), 30), (("v2.5.0".data), 25)],
       [(("v3.0.0".data), 30), (("v2.5.0".data), 25)], 30⟩).2 =
      .rolledBack ("v2.5.0-rollback-1724850000".data)
        ("Rollback to v2.5.0 on production by alice".data) ∧
    containsSub ("v3.0.0".data)
      ("Rollback to v2.5.0 on production by alice".data) = false ∧
    containsSub ("3.0.0".data)
      ("Rollback to v2.5.0 on production by alice".data) = false := by
  exact ⟨by decide, by decide, by decide⟩

/-- C8 (amended): a rollback to an existing target tag creates and pushes
exactly one new tag, named `<target>-rollback-<unix seconds>`, pointing at
the target's commit, whose annotation message names the environment, the
initiator, and the version rolled back to — but not the version rolled back
from. -/
theorem c8_rollback_tag_synthesis (environment : String) (version : Str)
    (user : String) (ts : Str) (st : GitState) (c : Nat)
    (hc : lookupTag st.localTags version = some c)
    (hfresh : lookupTag st.localTags (rollbackTagName version ts) = none) :
    perform_rollback environment version user ts st =
      ({ st with
          localTags := st.localTags ++ [(rollbackTagName version ts, c)]
          remoteTags := st.remoteTags ++ [(rollbackTagName version ts, c)] },
       .rolledBack (rollbackTagName version ts)
         (rollback_message version environment user)) ∧
    lookupTag (perform_rollback environment version user ts st).1.localTags
      (rollbackTagName version ts) = some c := by
  have h1 : perform_rollback environment version user ts st =
      ({ st with
          localTags := st.localTags ++ [(rollbackTagName version ts, c)]
          remoteTags := st.remoteTags ++ [(rollbackTagName version ts, c)] },
       .rolledBack (rollbackTagName version ts)
         (rollback_message version environment user)) := by
    simp [perform_rollback, hc]
  refine ⟨h1, ?_⟩
  rw [h1]
  exact lookupTag_append_right c hfresh

/-- Witness for C8 (amended) at the spec's production scenario, rolling back
to `v2.5.0` which points at commit 25. -/
theorem c8_rollback_tag_synthesis_witness :
    perform_rollback "production" ("v2.5.0".data) "alice" ("1724850000".data)
      ⟨[(("v3.0.0".data), 30), (("v2.5.0".data), 25)],
       [(("v3.0.0".data), 30), (("v2.5.0".data), 25)], 30⟩ =
      (⟨[(("v3.0.0".data), 30), (("v2.5.0".data), 25),
          (("v2.5.0-rollback-1724850000".data), 25)],
        [(("v3.0.0".data), 30), (("v2.5.0".data), 25),
          (("v2.5.0-rollback-1724850000".data), 25)], 30⟩,
       .rolledBack ("v2.5.0-rollback-1724850000".data)
         ("Rollback to v2.5.0 on production by alice".data)) := by
  have h := c8_rollback_tag_synthesis "production" ("v2.5.0".data) "alice"
    ("1724850000".data)
    ⟨[(("v3.0.0".data), 30), (("v2.5.0".data), 25)],
     [(("v3.0.0".data), 30), (("v2.5.0".data), 25)], 30⟩ 25
    (by decide) (by decide)
  exact h.1

/-- C9: the monitor contributes a non-zero exit exactly when a run matching
the pushed tag was discovered and its terminal conclusion is not `success`;
when the bounded discovery loop finds nothing, the monitor returns without
failing and hands the operator the constructed manual-monitoring URL. -/
theorem c9_monitor_exit_iff (tag : Str) (queries : List (List RunInfo))
    (repo : String) :
    (monitorExitCode (monitor_github_actions tag queries repo) ≠ 0 ↔
      ∃ r, find_workflow_run tag queries 10 = some r ∧
        r.conclusion ≠ "success") ∧
    (find_workflow_run tag queries 10 = none →
      monitor_github_actions tag queries repo =
        .notFound ("https://github.com/" ++ repo ++ "/actions")) := by
  constructor
  · rw [monitor_github_actions]
    rcases hf : find_workflow_run tag queries 10 with _ | r
    · simp [monitorExitCode]
    · simp only []
      by_cases hc : r.conclusion = "success"
      · rw [if_pos hc]
        simp [monitorExitCode, hc]
      · rw [if_neg hc]
        simp [monitorExitCode, hc]
  · intro h
    rw [monitor_github_actions, h]

/-- Witness for C9: a failing run discovered for `v1.2.3` makes the exit code
non-zero, and an empty observation sequence yields the manual URL without
failure. -/
theorem c9_monitor_exit_iff_witness :
    monitorExitCode (monitor_github_actions ("v1.2.3".data)
      [[⟨42, "refs/tags/v1.2.3", "failure"⟩]] "karmadev/svc") ≠ 0 ∧
    monitor_github_actions ("v1.2.3".data) [] "karmadev/svc" =
      .notFound "https://github.com/karmadev/svc/actions" := by
  refine ⟨?_, ?_⟩
  · exact (c9_monitor_exit_iff ("v1.2.3".data)
      [[⟨42, "refs/tags/v1.2.3", "failure"⟩]] "karmadev/svc").1.mpr
      ⟨⟨42, "refs/tags/v1.2.3", "failure"⟩, by decide, by decide⟩
  · exact (c9_monitor_exit_iff ("v1.2.3".data) [] "karmadev/svc").2 (by decide)

/-- C10: a synthesized rollback tag `<base>-rollback-<unix seconds>` matches
none of the three track patterns of `get_latest_version` (production regex,
`-staging` glob, `-dev` glob), so appending it to any tag list leaves
`get_latest_version` — and hence the base of the next deployment's increment
— unchanged for every environment; in particular `perform_rollback` never
changes any environment's latest version. -/
theorem c10_rollback_tags_invisible (e : Env) (base ts : Str)
    (hne : ts ≠ []) (hdig : ∀ c ∈ ts, c.isDigit = true) :
    envFilter e (rollbackTagName base ts) = false ∧
    (∀ tags : List Str,
      get_latest_version e (tags ++ [rollbackTagName base ts]) =
        get_latest_version e tags) ∧
    (∀ (environment : String) (user : String) (st : GitState) (c : Nat),
      lookupTag st.localTags base = some c →
      get_latest_version e
          (tagNames (perform_rollback environment base user ts st).1) =
        get_latest_version e (tagNames st)) := by
  have hfilter : List.filter (envFilter e) [rollbackTagName base ts] = [] := by
    simp [List.filter, envFilter_rollback e hne hdig]
  refine ⟨envFilter_rollback e hne hdig, ?_, ?_⟩
  · intro tags
    rw [get_latest_version, get_latest_version, List.filter_append, hfilter,
      List.append_nil]
  · intro environment user st c hc
    have h1 : (perform_rollback environment base user ts st).1 =
        { st with
          localTags := st.localTags ++ [(rollbackTagName base ts, c)]
          remoteTags := st.remoteTags ++ [(rollbackTagName base ts, c)] } := by
      simp [perform_rollback, hc]
    have h2 : tagNames
        { st with
          localTags := st.localTags ++ [(rollbackTagName base ts, c)]
          remoteTags := st.remoteTags ++ [(rollbackTagName base ts, c)] } =
        tagNames st ++ [rollbackTagName base ts] := by
      simp [tagNames]
    rw [h1, h2, get_latest_version, get_latest_version, List.filter_append,
      hfilter, List.append_nil]

/-- Witness for C10: the rollback tag `v2.5.0-rollback-1724850000` is
invisible to the production track of `{v3.0.0, v2.5.0}`. -/
theorem c10_rollback_tags_invisible_witness :
    envFilter .production
      (rollbackTagName ("v2.5.0".data) ("1724850000".data)) = false ∧
    get_latest_version .production
      ([("v3.0.0".data), ("v2.5.0".data)] ++
        [rollbackTagName ("v2.5.0".data) ("1724850000".data)]) =
      get_latest_version .production [("v3.0.0".data), ("v2.5.0".data)] := by
  have h := c10_rollback_tags_invisible .production ("v2.5.0".data)
    ("1724850000".data) (by decide) (by decide)
  exact ⟨h.1, h.2.1 _⟩
